import Mathlib

/-!
Verification of the DualDory linkable threshold ring-signature implementation
(packages `common`, `dory`, `tag`, `threshold`).

Modelling conventions (shallow embedding):

* BN254 groups G1, G2, Gt all have prime order q and the pairing
  e : G1 × G2 → Gt is bilinear and non-degenerate, so each group is
  isomorphic to the scalar field Zq via discrete logarithms with respect to
  the generators g1, g2, e(g1,g2).  We embed group elements by their
  discrete logarithms in an abstract field `F` (standing for Zq):
  - G1/G2 addition and Gt multiplication become `+` on `F`;
  - scalar multiplication (`G1.Mul`, `G2.Mul`) and Gt exponentiation
    (`Gt.Exp`) become `*` on `F`;
  - `Gt.Inverse` becomes negation;
  - the pairing `e(x·g1, y·g2) = (x*y)·gt` becomes `x * y`;
  - the generators `curve.GenG1`, `curve.GenG2` become `1`.
* SHA-256, the hash-to-curve maps and the ASN.1 serializations are external
  collaborators (crypto/sha256, gnark-crypto, encoding/asn1); they are
  modelled as abstract deterministic functions collected in an `Oracle`
  structure.  Byte strings are modelled as `List Nat`.
* Go slice indexing that can panic, `panic(...)` calls and the library
  preconditions (`length mismatch`, `empty vectors`, ...) are modelled by
  `Option`: a `none` result means the Go code panics, `some` is the value
  returned.
* Scalar arithmetic (`math.Zr`) is arithmetic in `F`; `Mod(GroupOrder)` is
  the identity on field elements and `InvModP` is field inverse.
-/

set_option linter.unusedSectionVars false
set_option linter.unusedVariables false

/-! ### common: feFrom256Bits / FieldElementFromBytes (common/fe.go)

This part is independent of the group model: it is pure 64-bit limb
arithmetic on the SHA-256 digest, translated from `feFrom256Bits`.
`fr.Element` is a vector of four 64-bit limbs, `z[0]` least significant. -/

/-- The BN254 scalar-field order q (`curve.GroupOrder`). -/
def qBN : Nat :=
  21888242871839275222246405745257275088548364400416034343698204186575808495617

/-- Least-significant 64-bit limb of q (0x43E1F593F0000001). -/
def q0L : Nat := 4891460686036598785

/-- Second 64-bit limb of q. -/
def q1L : Nat := 2896914383306846353

/-- Third 64-bit limb of q. -/
def q2L : Nat := 13281191951274694749

/-- Most-significant 64-bit limb of q (0x30644E72E131A029). -/
def q3L : Nat := 3486998266802970665

/-- binary.BigEndian.Uint64: big-endian value of an 8-byte slice. -/
def beUint64 (bs : List Nat) : Nat :=
  bs.foldl (fun acc b => acc * 256 + b) 0

/-- bits.Sub64: 64-bit subtraction with borrow; returns (diff, borrowOut). -/
def sub64 (x y b : Nat) : Nat × Nat :=
  (((x + 2 ^ 64) - (y + b)) % 2 ^ 64, if x < y + b then 1 else 0)

/-- feFrom256Bits: loads the 32-byte digest into the four limbs of an
fr.Element (`z[0] = BE(bytes[0:8])`, ..., `z[3] = BE(bytes[24:32])`),
reduces the top limb modulo q3L, and then conditionally subtracts q
(the not-constant-time branch).  `none` models the length-check panic. -/
def feFrom256Bits (bytes : List Nat) : Option (Nat × Nat × Nat × Nat) :=
  if bytes.length ≠ 32 then none
  else
    let z0 := beUint64 (bytes.take 8)
    let z1 := beUint64 ((bytes.drop 8).take 8)
    let z2 := beUint64 ((bytes.drop 16).take 8)
    let z3 := beUint64 ((bytes.drop 24).take 8) % q3L
    if ¬ (z3 < q3L ∨ (z3 = q3L ∧ (z2 < q2L ∨ (z2 = q2L ∧
         (z1 < q1L ∨ (z1 = q1L ∧ z0 < q0L)))))) then
      let s0 := sub64 z0 q0L 0
      let s1 := sub64 z1 q1L s0.2
      let s2 := sub64 z2 q2L s1.2
      let s3 := sub64 z3 q3L s2.2
      some (s0.1, s1.1, s2.1, s3.1)
    else
      some (z0, z1, z2, z3)

/-- Integer value of a four-limb fr.Element, z.1 the least significant limb. -/
def feValue (z : Nat × Nat × Nat × Nat) : Nat :=
  z.1 + z.2.1 * 2 ^ 64 + z.2.2.1 * 2 ^ 128 + z.2.2.2 * 2 ^ 192

/-- Big-endian integer value of a byte string (what the spec claims the
digest is interpreted as). -/
def beValue (bytes : List Nat) : Nat :=
  bytes.foldl (fun acc b => acc * 256 + b) 0

/-! ### common: vector algebra (common/g.go), discrete-log model -/

variable {F : Type} [Field F] [DecidableEq F]

/-- Pairing followed by final exponentiation (`e` in the source): in the
discrete-log model `e(x·g1, y·g2) = (x*y)·gt`. -/
def eP (g1 g2 : F) : F := g1 * g2

/-- Total inner pairing product value `Π e(v1_i, v2_i)` in dlog form:
`Σ v1_i * v2_i`.  Used to state the value of `InnerProd` when it succeeds. -/
def ipv (v1 v2 : List F) : F :=
  (List.zipWith (fun a b => a * b) v1 v2).sum

/-- G1v.InnerProd: panics (`none`) on length mismatch or empty vectors,
otherwise the inner pairing product. -/
def innerProd (v1 v2 : List F) : Option F :=
  if v1.length ≠ v2.length then none
  else if v1.length = 0 then none
  else some (ipv v1 v2)

/-- G1v.Add / G2v.Add: pointwise sum; Go indexes the second vector with the
first vector's indices, so a shorter second vector panics. -/
def vAdd (v w : List F) : Option (List F) :=
  if w.length < v.length then none
  else some (List.zipWith (fun a b => a + b) v w)

/-- G1v.Mul / G2v.Mul: scalar multiple of every entry. -/
def vMul (v : List F) (x : F) : List F :=
  v.map (fun a => a * x)

/-- G1v.Neg: pointwise negation (`zero.Sub(g1v[i])`). -/
def vNeg (v : List F) : List F :=
  v.map (fun a => -a)

/-- G2v.Mulv: pointwise scalar multiples; a shorter scalar vector panics. -/
def vMulv (v : List F) (xs : List F) : Option (List F) :=
  if xs.length < v.length then none
  else some (List.zipWith (fun a b => a * b) v xs)

/-- G1v.Duplicate / G2v.Duplicate: n copies of the single entry;
panics unless the receiver has length exactly 1. -/
def vDuplicate (v : List F) (n : Nat) : Option (List F) :=
  match v with
  | [x] => some (List.replicate n x)
  | _ => none

/-- G2v.Sum: sum of the entries, panicking on the empty vector
(`g2v[0]` indexing). -/
def vSum (v : List F) : Option F :=
  match v with
  | [] => none
  | x :: rest => some (x + rest.sum)

/-! ### dory: data types (dory/dory.go) -/

/-- ReducePP: the reduction sub-parameters of one level. -/
structure ReducePP (F : Type) where
  Γ1Prime : List F
  Γ2Prime : List F
  Δ1R : F
  Δ1L : F
  Δ2R : F
  Δ2L : F

/-- PP: one level of the Dory public parameters (digest cached at
construction time, the embedded ReducePP, generators and their inner
pairing product χ). -/
structure PP (F : Type) where
  digest : List Nat
  rpp : ReducePP F
  Γ1 : List F
  Γ2 : List F
  χ : F

/-- ReduceProverStep1Elements, without the derived `digest` field
(the digest is recomputed by the oracle from the other fields). -/
structure Step1E (F : Type) where
  ppDigest : List Nat
  D1L : F
  D1R : F
  D2L : F
  D2R : F
  C : F
  D1 : F
  D2 : F

/-- ReduceProverStep2Elements. -/
structure Step2E (F : Type) where
  step1Digest : List Nat
  Cplus : F
  Cminus : F

/-- ScalarProductProofElements (PP pointer plus base-case vectors). -/
structure SPPE (F : Type) where
  pp : PP F
  E1 : List F
  E2 : List F

/-- dory.Proof (the cached digest field is derived and omitted). -/
structure DoryProof (F : Type) where
  Step1Elements : List (Step1E F)
  Step2Elements : List (Step2E F)
  ScalarProductProofElements : SPPE F

/-- dory.Commitment. -/
structure Commitment (F : Type) where
  C : F
  D1 : F
  D2 : F

/-- dory.Witness. -/
structure Witness (F : Type) where
  V1 : List F
  V2 : List F

/-- tag.Proof. -/
structure TagProof (F : Type) where
  A : F
  B : F
  a : F
  b : F

/-- threshold.PreProcessedParams.  The field `Γ2` is the sum Σ Γ2_i
(a single G2 element), exactly as in the source. -/
structure PreProcessedParams (F : Type) where
  digest : List Nat
  A0Inverse : F
  D : F
  Γ2 : F
  H1 : List F

/-- threshold.PublicParams. -/
structure PublicParams (F : Type) where
  ppp : PreProcessedParams F
  DoryParams : List (PP F)

/-- threshold.RingSignature. -/
structure RingSig (F : Type) where
  TagProof : TagProof F
  TagCommitment : F
  TagValue : F
  DoryProof1 : DoryProof F
  DoryProof2 : DoryProof F
  B : F
  Z : F
  Y : F

/-- The external deterministic functions (SHA-256 digests of canonical byte
encodings, hash-to-curve in dlog form, pseudo-random Fiat-Shamir
challenges).  Completeness holds for every choice of these functions, so
they are abstract fields; a concrete instantiation is given further below
for evaluation. -/
structure Oracle (F : Type) where
  /-- dlog of `H = HashToG1(SHA256("DualDory"))` (common.H()). -/
  hv : F
  /-- dlog of `curve.HashToG1(sha256Digest(prefix))` (tag package). -/
  hg1 : List Nat → F
  /-- ReduceProverStep1Elements.RO(): Fiat-Shamir challenge β. -/
  roStep1 : Step1E F → F
  /-- the SHA-256 digest stored by ReduceProverStep1Elements.RO(). -/
  dStep1 : Step1E F → List Nat
  /-- ReduceProverStep2Elements.RO(): Fiat-Shamir challenge α. -/
  roStep2 : Step2E F → F
  /-- threshold.hashToZr(A.Bytes(), Y.Bytes(), pp.digest): challenge h. -/
  roOuter : F → F → List Nat → F
  /-- tag.hashToZr over buildHashContext(A, B, extras): challenge c. -/
  roTag : F → F → List (List Nat) → F
  /-- dory.Proof.Digest(): SHA-256 of the ASN.1 proof serialization. -/
  dProof : DoryProof F → List Nat
  /-- ReducePP.Digest(). -/
  dRPP : ReducePP F → List Nat
  /-- PP.Digest(prev): SHA-256 over prev digest, reduction digest
  (empty when the level has length-1 generators), χ, Γ1, Γ2. -/
  dPP : List Nat → List Nat → F → List F → List F → List Nat
  /-- PreProcessedParams.computeDigest: over D, A0Inverse, Γ2, H1 and the
  last Dory level's digest. -/
  dPPP : F → F → F → List F → List Nat → List Nat

/-! ### tag: Σ-protocol (tag/tag.go).  Randomness (`r`, `ar`, `br`) is
passed explicitly; `pfx` is the epoch prefix. -/

/-- tag.Commit with explicit randomness r: `com = g1·sk + H·r`
(in dlog form `sk + hv*r`).  The witness is r itself. -/
def tagCommit (o : Oracle F) (sk r : F) : F :=
  sk + o.hv * r

/-- tag.Tag: `T = HashToG1(SHA256(prefix))·sk`. -/
def tagValue (o : Oracle F) (sk : F) (pfx : List Nat) : F :=
  o.hg1 pfx * sk

/-- tag.NewProof with explicit announcement randomness ar, br. -/
def tagNewProof (o : Oracle F) (pfx : List Nat) (sk : F) (r : F)
    (ar br : F) (additionalContext : List (List Nat)) : TagProof F :=
  let A := o.hg1 pfx * ar
  let B := ar + o.hv * br
  let c := o.roTag A B additionalContext
  let a := ar + sk * c
  let b := br + r * c
  ⟨A, B, a, b⟩

/-- tag.Proof.Verify: `none` is success; the two checks fail with
"tag proof mismatch" and "commitment proof mismatch" respectively. -/
def tagVerify (o : Oracle F) (p : TagProof F) (tg com : F)
    (pfx : List Nat) (additionalContext : List (List Nat)) : Option String :=
  let c := o.roTag p.A p.B additionalContext
  if o.hg1 pfx * p.a = tg * c + p.A then
    if p.a + o.hv * p.b = p.B + com * c then none
    else some "commitment proof mismatch"
  else some "tag proof mismatch"

/-! ### dory: public parameters (dory/dory.go).  The pseudo-random
generator draws `psuedoRandomG1(n, i)` / `psuedoRandomG2(n, i)` are
hash-to-curve outputs; their dlogs are abstracted as functions
`g1f, g2f : Nat → Nat → F`. -/

/-- randomG1Vector / randomG2Vector: `v[i] = psuedoRandom(n, i)`. -/
def randomVec (gf : Nat → Nat → F) (n : Nat) : List F :=
  (List.range n).map (gf n)

/-- PP.Digest for a freshly built level: writes the previous digest when
nonempty, the ReducePP digest unless the level has length-1 generators,
then χ, Γ1, Γ2.  The conditional writes are mirrored by passing the empty
string to the abstract digest when a part is skipped. -/
def ppDigestModel (o : Oracle F) (prev : List Nat) (rpp : ReducePP F)
    (χ : F) (Γ1 Γ2 : List F) : List Nat :=
  o.dPP prev (if Γ1.length ≠ 1 ∧ Γ2.length ≠ 1 then o.dRPP rpp else []) χ Γ1 Γ2

/-- PP.reducePP: empty sub-parameters at n = 1 (the Go zero value of
ReducePP, with the unused Δ cross terms modelled as 0), otherwise fresh
half-length generator vectors and the four Δ inner products. -/
def reducePPModel (g1f g2f : Nat → Nat → F) (Γ1 Γ2 : List F) (n : Nat) :
    Option (ReducePP F) :=
  if n = 1 then some ⟨[], [], 0, 0, 0, 0⟩
  else
    let m := n / 2
    let Γ1P := randomVec g1f m
    let Γ2P := randomVec g2f m
    do
      let Δ1L ← innerProd (Γ1.take m) Γ2P
      let Δ1R ← innerProd (Γ1.drop m) Γ2P
      let Δ2L ← innerProd Γ1P (Γ2.take m)
      let Δ2R ← innerProd Γ1P (Γ2.drop m)
      some ⟨Γ1P, Γ2P, Δ1R, Δ1L, Δ2R, Δ2L⟩

/-- dory.NewPublicParams(n): the top level of the chain. -/
def NewPublicParamsM (o : Oracle F) (g1f g2f : Nat → Nat → F) (n : Nat) :
    Option (PP F) := do
  let Γ1 := randomVec g1f n
  let Γ2 := randomVec g2f n
  let χ ← innerProd Γ1 Γ2
  let rpp ← reducePPModel g1f g2f Γ1 Γ2 n
  some ⟨ppDigestModel o [] rpp χ Γ1 Γ2, rpp, Γ1, Γ2, χ⟩

/-- (pp PP).NewPublicParams(n): the next level, derived from the previous
level's reduction sub-parameters; panics unless the previous generators
have length exactly 2n. -/
def NewPublicParamsFrom (o : Oracle F) (g1f g2f : Nat → Nat → F)
    (pp : PP F) (n : Nat) : Option (PP F) :=
  if pp.Γ1.length ≠ 2 * n ∨ pp.Γ2.length ≠ 2 * n then none
  else do
    let Γ1 := pp.rpp.Γ1Prime
    let Γ2 := pp.rpp.Γ2Prime
    let χ ← innerProd Γ1 Γ2
    let rpp ← reducePPModel g1f g2f Γ1 Γ2 n
    some ⟨ppDigestModel o pp.digest rpp χ Γ1 Γ2, rpp, Γ1, Γ2, χ⟩

/-- The `for n > 0` loop of GeneratePublicParams.  The loop halves n each
iteration, so `fuel = n + 1` steps always suffice; running out of fuel
(impossible from GeneratePublicParamsM) yields `none`. -/
def genChainAux (o : Oracle F) (g1f g2f : Nat → Nat → F) :
    Nat → PP F → Nat → Option (List (PP F))
  | 0, _, _ => none
  | fuel + 1, pp, n =>
    if n = 0 then some []
    else if n / 2 = 0 then some [pp]
    else do
      let pp2 ← NewPublicParamsFrom o g1f g2f pp (n / 2)
      let rest ← genChainAux o g1f g2f fuel pp2 (n / 2)
      some (pp :: rest)

/-- dory.GeneratePublicParams(n): the full chain of levels
n, n/2, ..., 1. -/
def GeneratePublicParamsM (o : Oracle F) (g1f g2f : Nat → Nat → F)
    (n : Nat) : Option (List (PP F)) := do
  let pp ← NewPublicParamsM o g1f g2f n
  genChainAux o g1f g2f (n + 1) pp n

/-- dory.Commit: `C = ⟨v1,v2⟩`, `D1 = ⟨v1,Γ2⟩`, `D2 = ⟨Γ1,v2⟩`. -/
def CommitM (v1 v2 : List F) (pp : PP F) :
    Option (Commitment F × Witness F) := do
  let D1 ← innerProd v1 pp.Γ2
  let D2 ← innerProd pp.Γ1 v2
  let C ← innerProd v1 v2
  some (⟨C, D1, D2⟩, ⟨v1, v2⟩)

/-! ### dory: reduction (dory/dory.go) -/

/-- ScalarProductProofElements.Verify with the verifier-local random
scalar d passed explicitly: checks
`e(E1[0] + d·Γ1[0], E2[0] + d⁻¹·Γ2[0]) = χ · C · D2^d · D1^{d⁻¹}`.
Outer `none` models the panics on empty E1/E2/Γ1/Γ2; the inner value is
`none` for success and the "proof invalid" error otherwise. -/
def sppeVerify (sppe : SPPE F) (cmt : Commitment F) (d : F) :
    Option (Option String) := do
  let e1 ← sppe.E1.head?
  let e2 ← sppe.E2.head?
  let γ1 ← sppe.pp.Γ1.head?
  let γ2 ← sppe.pp.Γ2.head?
  let leftEq := eP (e1 + γ1 * d) (e2 + γ2 * d⁻¹)
  let rightEq := sppe.pp.χ + cmt.C + cmt.D2 * d + cmt.D1 * d⁻¹
  if leftEq = rightEq then some none else some (some "proof invalid")

/-- One round of the prover side of `reduce`: everything from the D1L/D1R/
D2L/D2R inner products up to the next witness and commitment.  In Gt
(dlog, written additively) the reduced commitment is
`C' = C + χ + β·D2 + β⁻¹·D1 + α·C⁺ + α⁻¹·C⁻`,
`D1' = α·D1L + D1R + αβ·Δ1L + β·Δ1R`,
`D2' = α⁻¹·D2L + D2R + α⁻¹β⁻¹·Δ2L + β⁻¹·Δ2R`. -/
def proverRound (o : Oracle F) (pp : PP F) (w : Witness F)
    (cmt : Commitment F) :
    Option (Step1E F × Step2E F × Witness F × Commitment F) := do
  let m := pp.Γ1.length / 2
  let D1L ← innerProd (w.V1.take m) pp.rpp.Γ2Prime
  let D1R ← innerProd (w.V1.drop m) pp.rpp.Γ2Prime
  let D2L ← innerProd pp.rpp.Γ1Prime (w.V2.take m)
  let D2R ← innerProd pp.rpp.Γ1Prime (w.V2.drop m)
  let s1 : Step1E F := ⟨pp.digest, D1L, D1R, D2L, D2R, cmt.C, cmt.D1, cmt.D2⟩
  let β := o.roStep1 s1
  let v1 ← vAdd w.V1 (vMul pp.Γ1 β)
  let v2 ← vAdd w.V2 (vMul pp.Γ2 β⁻¹)
  let Cplus ← innerProd (v1.take m) (v2.drop m)
  let Cminus ← innerProd (v1.drop m) (v2.take m)
  let s2 : Step2E F := ⟨o.dStep1 s1, Cplus, Cminus⟩
  let α := o.roStep2 s2
  let v1prime ← vAdd (vMul (v1.take m) α) (v1.drop m)
  let v2prime ← vAdd (vMul (v2.take m) α⁻¹) (v2.drop m)
  let Cprime := cmt.C + pp.χ + cmt.D2 * β + cmt.D1 * β⁻¹
      + Cplus * α + Cminus * α⁻¹
  let D1prime := D1L * α + D1R + pp.rpp.Δ1L * α * β + pp.rpp.Δ1R * β
  let D2prime := D2L * α⁻¹ + D2R + pp.rpp.Δ2L * α⁻¹ * β⁻¹
      + pp.rpp.Δ2R * β⁻¹
  some (s1, s2, ⟨v1prime, v2prime⟩, ⟨Cprime, D1prime, D2prime⟩)

/-- dory.reduce: recursion over the parameter chain.  At `m = 1` the
base-case ScalarProductProof is emitted against `pps[1]` (panicking if the
chain has no next level); otherwise the round output is prepended to the
recursive proof. -/
def reduceM (o : Oracle F) : List (PP F) → Witness F → Commitment F →
    Option (List (Step1E F) × List (Step2E F) × SPPE F)
  | [], _, _ => none
  | pp :: rest, w, cmt => do
    let (s1, s2, w2, cmt2) ← proverRound o pp w cmt
    if pp.Γ1.length / 2 = 1 then do
      let pp2 ← rest.head?
      some ([s1], [s2], ⟨pp2, w2.V1, w2.V2⟩)
    else do
      let (r1, r2, f) ← reduceM o rest w2 cmt2
      some (s1 :: r1, s2 :: r2, f)

/-- dory.Reduce: packages the recursion's output as a Proof. -/
def ReduceM (o : Oracle F) (pps : List (PP F)) (w : Witness F)
    (cmt : Commitment F) : Option (DoryProof F) := do
  let (s1, s2, f) ← reduceM o pps w cmt
  some ⟨s1, s2, f⟩

/-- One round of the verifier side of `verifyReduce`: rebuilds the step-1
and step-2 transcript records from its own level digest, the current
commitment and the prover's messages, rederives β and α, and recomputes
the reduced commitment by the same formulas as the prover. -/
def verifierRound (o : Oracle F) (pp : PP F) (cmt : Commitment F)
    (fp1 : Step1E F) (fp2 : Step2E F) : Commitment F :=
  let s1 : Step1E F :=
    ⟨pp.digest, fp1.D1L, fp1.D1R, fp1.D2L, fp1.D2R, cmt.C, cmt.D1, cmt.D2⟩
  let β := o.roStep1 s1
  let s2 : Step2E F := ⟨o.dStep1 s1, fp2.Cplus, fp2.Cminus⟩
  let α := o.roStep2 s2
  let Cprime := cmt.C + pp.χ + cmt.D2 * β + cmt.D1 * β⁻¹
      + fp2.Cplus * α + fp2.Cminus * α⁻¹
  let D1prime := fp1.D1L * α + fp1.D1R + pp.rpp.Δ1L * α * β
      + pp.rpp.Δ1R * β
  let D2prime := fp1.D2L * α⁻¹ + fp1.D2R + pp.rpp.Δ2L * α⁻¹ * β⁻¹
      + pp.rpp.Δ2R * β⁻¹
  ⟨Cprime, D1prime, D2prime⟩

/-- dory.verifyReduce, with the base-case random scalar d explicit.  On a
single-level chain the scalar-product check runs; otherwise the round is
replayed using `fromProver1[0]` and `fromProver2[0]` (panicking — `none` —
when the prover's lists are too short, as the Go indexing does). -/
def verifyReduceM (o : Oracle F) : List (PP F) → Commitment F →
    List (Step1E F) → List (Step2E F) → SPPE F → F → Option (Option String)
  | [], _, _, _, _, _ => none
  | [_], cmt, _, _, finalProof, d => sppeVerify finalProof cmt d
  | pp :: pp2 :: rest, cmt, fromProver1, fromProver2, finalProof, d => do
    let fp1 ← fromProver1.head?
    let fp2 ← fromProver2.head?
    verifyReduceM o (pp2 :: rest) (verifierRound o pp cmt fp1 fp2)
      fromProver1.tail fromProver2.tail finalProof d

/-- dory.VerifyReduce on a Proof value. -/
def VerifyReduceM (o : Oracle F) (pps : List (PP F)) (cmt : Commitment F)
    (proof : DoryProof F) (d : F) : Option (Option String) :=
  verifyReduceM o pps cmt proof.Step1Elements proof.Step2Elements
    proof.ScalarProductProofElements d

/-- The Dory round trip of the spec: generate the chain for n, commit to
(v1, v2) under `chain[0]`, run Reduce and then VerifyReduce.  The result is
`some none` for success, `some (some e)` for a verification error and
`none` when any step panics. -/
def doryRoundTrip (o : Oracle F) (g1f g2f : Nat → Nat → F) (n : Nat)
    (v1 v2 : List F) (d : F) : Option (Option String) := do
  let pps ← GeneratePublicParamsM o g1f g2f n
  let pp0 ← pps.head?
  let (cmt, w) ← CommitM v1 v2 pp0
  let proof ← ReduceM o pps w cmt
  VerifyReduceM o pps cmt proof d

/-! ### threshold: ring signature (threshold/ring.go) -/

/-- threshold.negZr: `ModSub(0, x, GroupOrder)`. -/
def negZr (x : F) : F := 0 - x

/-- threshold.sumZr: sum of a nonempty scalar list (`in[0]` panics on the
empty list); the final `Mod(GroupOrder)` is the identity in `F`. -/
def sumZr (xs : List F) : Option F :=
  match xs with
  | [] => none
  | x :: rest => some (x + rest.sum)

/-- threshold.embedInVec: splice `element` into `a` at position `index`.
When `index > len(a)` the Go loop reads past the end of `a` and panics. -/
def embedInVec (a : List F) (element : F) : Nat → Option (List F)
  | 0 => some (element :: a)
  | index + 1 =>
    match a with
    | [] => none
    | y :: ys => (embedInVec ys element index).map (fun r => y :: r)

/-- The loop of threshold.computeY: `Σ_{i ≠ skip} (ring[i] − com)·c[k]`,
consuming the challenge list in order and panicking (`none`) when it runs
out.  The Go code accumulates by repeated G1 addition; the model uses the
same summands (addition order is immaterial in the abelian group). -/
def computeYAux (com : F) : List F → List F → Nat → Nat → Option F
  | [], _, _, _ => some 0
  | _ :: ring, [], i, skip =>
    if i = skip then computeYAux com ring [] (i + 1) skip else none
  | g :: ring, cv :: cs2, i, skip =>
    if i = skip then computeYAux com ring (cv :: cs2) (i + 1) skip
    else
      (computeYAux com ring cs2 (i + 1) skip).map
        (fun rest => (g - com) * cv + rest)

/-- threshold.computeY: `Y = H·y + Σ_{i ≠ skip} c_k·(ring[i] − com)`. -/
def computeY (o : Oracle F) (y : F) (cs : List F) (com : F)
    (ring : List F) (skip : Nat) : Option F :=
  (computeYAux com ring cs 0 skip).map (fun s => o.hv * y + s)

/-- PrivateKey.locatePK: the first index whose public key (dlog: the ring
entry itself, since `pk = g1·sk` has dlog `sk`) matches; panics (`none`)
when the key is not in the ring. -/
def locatePKAux (myPK : F) : List F → Nat → Option Nat
  | [], _ => none
  | p :: ps, i => if p = myPK then some i else locatePKAux myPK ps (i + 1)

/-- threshold.ComputePreProcessedParams: `A0⁻¹`, `H1`, `D`, `Γ̄2` and the
digest.  `doryParams[0]` and `doryParams[len-1]` panic on an empty chain;
the last level's digest is its cached digest. -/
def ComputePreProcessedParamsM (o : Oracle F) (doryParams : List (PP F))
    (ring : List F) : Option (PreProcessedParams F) := do
  let pp ← doryParams.head?
  let A0 ← innerProd ring pp.Γ2
  let A0Inverse := -A0
  let H1 ← vDuplicate [o.hv] ring.length
  let D ← innerProd H1 pp.Γ2
  let Γ2s ← vSum pp.Γ2
  let lastPP ← doryParams.getLast?
  some ⟨o.dPPP D A0Inverse Γ2s H1 lastPP.digest, A0Inverse, D, Γ2s, H1⟩

/-- PrivateKey.RingProof with the random draws (`y` and the n−1 challenges
`cs`) explicit.  Returns the partial RingSignature without tag fields
(they are filled by Sign, as in the source, where the Go zero values stand
in for the not-yet-assigned fields). -/
def RingProofM (o : Oracle F) (pp : PublicParams F) (ring : List F)
    (r com sk y : F) (cs : List F) : Option (RingSig F) := do
  let dpp ← pp.DoryParams.head?
  let A := eP com pp.ppp.Γ2 + pp.ppp.A0Inverse
  let pkIndex ← locatePKAux (1 * sk) ring 0
  let Y ← computeY o y cs com ring pkIndex
  let h := o.roOuter A Y pp.ppp.digest
  let sc ← sumZr cs
  let cj := h + negZr sc
  let z := y + cj * r
  let c ← embedInVec cs cj pkIndex
  let cSum ← sumZr c
  if cSum = h then do
    let g2base ← vDuplicate [(1 : F)] ring.length
    let G2c ← vMulv g2base c
    let C := eP (o.hv * z - Y) 1
    let E := eP (o.hv * h) 1
    let B ← innerProd dpp.Γ1 G2c
    let negRing ← vAdd (vNeg ring) (← vDuplicate [com] ring.length)
    let (s11, s12, f1) ← reduceM o pp.DoryParams ⟨negRing, G2c⟩ ⟨C, A, B⟩
    let (s21, s22, f2) ← reduceM o pp.DoryParams ⟨pp.ppp.H1, G2c⟩ ⟨E, pp.ppp.D, B⟩
    some ⟨⟨0, 0, 0, 0⟩, com, 0, ⟨s11, s12, f1⟩, ⟨s21, s22, f2⟩, B, z, Y⟩
  else none

/-- PrivateKey.Sign with all random draws explicit: tag commitment
randomness r, ring-proof randomness y and cs, announcement randomness
ar, br. -/
def SignM (o : Oracle F) (pp : PublicParams F) (m pfx : List Nat)
    (ring : List F) (sk r y : F) (cs : List F) (ar br : F) :
    Option (RingSig F) := do
  let com := tagCommit o sk r
  let σ ← RingProofM o pp ring r com sk y cs
  let πt := tagNewProof o pfx sk r ar br
    [m, o.dProof σ.DoryProof1, o.dProof σ.DoryProof2]
  let t := tagValue o sk pfx
  some { σ with TagValue := t, TagProof := πt }

/-- RingSignature.Verify with the two base-case random scalars explicit.
The three component checks (two Dory verifications, tag verification) are
modelled sequentially; the result collects the stored error messages in
program order (`[]` = nil error, `none` = a panic inside a verifier). -/
def RingSigVerify (o : Oracle F) (σ : RingSig F) (pp : PublicParams F)
    (m pfx : List Nat) (d1 d2 : F) : Option (List String) := do
  let A := eP σ.TagCommitment pp.ppp.Γ2 + pp.ppp.A0Inverse
  let C := eP (o.hv * σ.Z - σ.Y) 1
  let h := o.roOuter A σ.Y pp.ppp.digest
  let E := eP (o.hv * h) 1
  let r1 ← verifyReduceM o pp.DoryParams ⟨C, A, σ.B⟩
    σ.DoryProof1.Step1Elements σ.DoryProof1.Step2Elements
    σ.DoryProof1.ScalarProductProofElements d1
  let r2 ← verifyReduceM o pp.DoryParams ⟨E, pp.ppp.D, σ.B⟩
    σ.DoryProof2.Step1Elements σ.DoryProof2.Step2Elements
    σ.DoryProof2.ScalarProductProofElements d2
  let r3 := tagVerify o σ.TagProof σ.TagValue σ.TagCommitment pfx
    [m, o.dProof σ.DoryProof1, o.dProof σ.DoryProof2]
  some ((r1.map (fun _ => "first Dory proof invalid")).toList
    ++ (r2.map (fun _ => "second Dory proof invalid")).toList
    ++ (r3.map (fun _ => "tag proof invalid")).toList)

/-- threshold.VerifyThresholdSignatures.  Tags are deduplicated by their
canonical byte encoding, which is injective, so the model deduplicates the
TagValue group elements themselves.  When the count of distinct tags
differs from the signature count the linkability error is returned before
any per-signature verification runs; otherwise all signatures are
verified (`ds` supplies each verification's base-case scalars) and the
first recorded failure, if any, is returned. -/
def VerifyThresholdSignaturesM (o : Oracle F) (pp : PublicParams F)
    (m pfx : List Nat) (ds : Nat → F × F) (signatures : List (RingSig F)) :
    Option (Option String) :=
  let tags := (signatures.map (fun σ => σ.TagValue)).dedup
  if tags.length ≠ signatures.length then
    some (some ("signature set was signed by " ++ toString tags.length
      ++ " out of " ++ toString signatures.length ++ " distinct signers"))
  else do
    let results ← (List.range signatures.length).mapM (fun i => do
      let σ ← signatures.get? i
      RingSigVerify o σ pp m pfx (ds i).1 (ds i).2)
    match results.flatten with
    | [] => some none
    | e :: _ => some (some e)

/-- End-to-end pipeline of the completeness law: build the parameter chain
for n, preprocess the ring, sign, then verify the signature against the
same message and prefix. -/
def SignThenVerify (o : Oracle F) (g1f g2f : Nat → Nat → F) (n : Nat)
    (ring : List F) (m pfx : List Nat) (sk r y : F) (cs : List F)
    (ar br : F) (d1 d2 : F) : Option (List String) := do
  let pps ← GeneratePublicParamsM o g1f g2f n
  let ppp ← ComputePreProcessedParamsM o pps ring
  let pp : PublicParams F := ⟨ppp, pps⟩
  let σ ← SignM o pp m pfx ring sk r y cs ar br
  RingSigVerify o σ pp m pfx d1 d2

/-- Variant pipeline used to exercise tampering: sign over message m, then
verify against message m2 (all other inputs unchanged). -/
def SignThenVerifyTamper (o : Oracle F) (g1f g2f : Nat → Nat → F) (n : Nat)
    (ring : List F) (m m2 pfx : List Nat) (sk r y : F) (cs : List F)
    (ar br : F) (d1 d2 : F) : Option (List String) := do
  let pps ← GeneratePublicParamsM o g1f g2f n
  let ppp ← ComputePreProcessedParamsM o pps ring
  let pp : PublicParams F := ⟨ppp, pps⟩
  let σ ← SignM o pp m pfx ring sk r y cs ar br
  RingSigVerify o σ pp m2 pfx d1 d2

/-! ### Concrete instantiation over the field Z/5 for evaluation -/

instance fact5prime : Fact (Nat.Prime 5) := ⟨by norm_num⟩

/-- A concrete oracle over Z/5 used to evaluate the model on explicit
inputs: all Fiat-Shamir challenges are the nonzero constant 1 except the
tag challenge, which distinguishes the verified message. -/
def oZ : Oracle (ZMod 5) where
  hv := 2
  hg1 := fun _ => 1
  roStep1 := fun _ => 1
  dStep1 := fun _ => [1]
  roStep2 := fun _ => 1
  roOuter := fun _ _ _ => 3
  roTag := fun _ _ ctx => if ctx.head? = some [7] then 1 else 2
  dProof := fun _ => []
  dRPP := fun _ => []
  dPP := fun _ _ _ _ _ => []
  dPPP := fun _ _ _ _ _ => []

/-- Concrete dlogs for the pseudo-random G1 generator draws. -/
def g1fZ : Nat → Nat → ZMod 5 := fun n i => (n : ZMod 5) + (i : ZMod 5) + 1

/-- Concrete dlogs for the pseudo-random G2 generator draws. -/
def g2fZ : Nat → Nat → ZMod 5 := fun n i => (n : ZMod 5) + 2 * (i : ZMod 5) + 2


def sigTriv : RingSig (ZMod 5) :=
  ⟨⟨0, 0, 0, 0⟩, 0, 0, ⟨[], [], ⟨⟨[], ⟨[], [], 0, 0, 0, 0⟩, [0], [0], 0⟩, [0], [0]⟩⟩,
    ⟨[], [], ⟨⟨[], ⟨[], [], 0, 0, 0, 0⟩, [0], [0], 0⟩, [0], [0]⟩⟩, 0, 0, 0⟩

def ppTriv : PublicParams (ZMod 5) :=
  ⟨⟨[], 0, 0, 0, [0, 0]⟩, [⟨[], ⟨[], [], 0, 0, 0, 0⟩, [1, 2], [3, 4], 0⟩,
    ⟨[], ⟨[], [], 0, 0, 0, 0⟩, [1], [3], 3⟩]⟩


/-- A single-level public-parameter value with nonempty base-case data,
used to evaluate Verify on well-shaped inputs. -/
def ppTriv1 : PublicParams (ZMod 5) :=
  ⟨⟨[], 0, 0, 0, [0, 0]⟩, [⟨[], ⟨[], [], 0, 0, 0, 0⟩, [1], [3], 3⟩]⟩

/-- The 32-byte digest 0x01 00 ... 00. -/
def dg1 : List Nat := 1 :: List.replicate 31 0

/-! ### Well-formedness of a Dory parameter chain (invariants used by the
completeness proofs; these restate what GeneratePublicParams constructs) -/

/-- A single level of public parameters for vector length 2^k: generator
lengths, χ, and (for k > 0) the lengths and Δ cross-term identities of the
reduction sub-parameters (empty sub-parameters at k = 0). -/
def wfPP (pp : PP F) (k : Nat) : Prop :=
  pp.Γ1.length = 2 ^ k ∧ pp.Γ2.length = 2 ^ k ∧ pp.χ = ipv pp.Γ1 pp.Γ2 ∧
  (k = 0 → pp.rpp.Γ1Prime = [] ∧ pp.rpp.Γ2Prime = []) ∧
  (∀ k2, k = k2 + 1 →
    pp.rpp.Γ1Prime.length = 2 ^ k2 ∧ pp.rpp.Γ2Prime.length = 2 ^ k2 ∧
    pp.rpp.Δ1L = ipv (pp.Γ1.take (2 ^ k2)) pp.rpp.Γ2Prime ∧
    pp.rpp.Δ1R = ipv (pp.Γ1.drop (2 ^ k2)) pp.rpp.Γ2Prime ∧
    pp.rpp.Δ2L = ipv pp.rpp.Γ1Prime (pp.Γ2.take (2 ^ k2)) ∧
    pp.rpp.Δ2R = ipv pp.rpp.Γ1Prime (pp.Γ2.drop (2 ^ k2)))

/-- A chain of levels for lengths 2^k, 2^(k-1), ..., 1: each level is
well formed and each next level's generators are the previous level's
reduction sub-parameters. -/
def validChain : List (PP F) → Nat → Prop
  | [], _ => False
  | pp :: rest, k =>
    wfPP pp k ∧
    match k, rest with
    | 0, [] => True
    | 0, _ :: _ => False
    | _ + 1, [] => False
    | k2 + 1, pp2 :: rest2 =>
      pp.rpp.Γ1Prime = pp2.Γ1 ∧ pp.rpp.Γ2Prime = pp2.Γ2 ∧
      validChain (pp2 :: rest2) k2

/-! ### Theorems -/

/-! #### Tag Σ-protocol (claims C3 and parts of C1, C5) -/

theorem tag_roundtrip_aux (o : Oracle F) (sk r ar br : F) (pfx : List Nat)
    (extras : List (List Nat)) :
    tagVerify o (tagNewProof o pfx sk r ar br extras) (tagValue o sk pfx)
      (tagCommit o sk r) pfx extras = none := by
  unfold tagVerify tagNewProof tagValue tagCommit
  simp only
  rw [if_pos (by ring), if_pos (by ring)]

/-- C3: round-trip of the tag Σ-protocol.  For every secret key sk, prefix,
extras and every choice of the random scalars r (commitment randomness)
and ar, br (announcement randomness), the proof produced by NewProof
verifies against Tag(sk, prefix) and the commitment from Commit(sk). -/
theorem tag_proof_roundtrip (o : Oracle F) (sk r ar br : F)
    (pfx : List Nat) (extras : List (List Nat)) :
    tagVerify o (tagNewProof o pfx sk r ar br extras) (tagValue o sk pfx)
      (tagCommit o sk r) pfx extras = none :=
  tag_roundtrip_aux o sk r ar br pfx extras

/-! #### Challenge-sum invariant (claim C9, reused by C1) -/

theorem embedInVec_eq_splice (x : F) :
    ∀ (j : Nat) (a : List F), j ≤ a.length →
      embedInVec a x j = some (a.take j ++ x :: a.drop j) := by
  intro j
  induction j with
  | zero => intro a _; simp [embedInVec]
  | succ j ih =>
    intro a hj
    match a with
    | [] => simp at hj
    | y :: ys =>
      simp only [embedInVec, List.take_succ_cons, List.drop_succ_cons]
      rw [ih ys (by simpa using hj)]
      simp

theorem sum_splice (x : F) (j : Nat) (a : List F) :
    (a.take j ++ x :: a.drop j).sum = x + a.sum := by
  rw [List.sum_append, List.sum_cons]
  have h := List.take_append_drop j a
  calc (a.take j).sum + (x + (a.drop j).sum)
      = x + ((a.take j).sum + (a.drop j).sum) := by ring
    _ = x + a.sum := by rw [← List.sum_append, h]

theorem sumZr_eq_sum (xs : List F) (hxs : xs ≠ []) :
    sumZr xs = some xs.sum := by
  match xs with
  | [] => exact absurd rfl hxs
  | y :: ys => simp [sumZr]

/-- C9: challenge-sum invariant during signing.  For every challenge list
cs (the n−1 random draws), every hash value h and every signer index
j ≤ |cs|, the spliced challenge vector from embedInVec sums to h, so the
`panic("sum of c isn't h")` branch of RingProof is unreachable. -/
theorem ring_proof_challenge_sum (cs : List F) (h : F) (j : Nat)
    (hcs : cs ≠ []) (hj : j ≤ cs.length) :
    ∃ s c, sumZr cs = some s ∧
      embedInVec cs (h + negZr s) j = some c ∧ sumZr c = some h := by
  refine ⟨cs.sum, cs.take j ++ (h + negZr cs.sum) :: cs.drop j,
    sumZr_eq_sum cs hcs, embedInVec_eq_splice _ j cs hj, ?_⟩
  rw [sumZr_eq_sum _ (by simp), sum_splice]
  simp [negZr]

/-- Witness for C9 at the concrete input cs = [1, 2], h = 3, j = 1 over
Z/5. -/
theorem ring_proof_challenge_sum_witness :
    ∃ s c, sumZr ([1, 2] : List (ZMod 5)) = some s ∧
      embedInVec ([1, 2] : List (ZMod 5)) ((3 : ZMod 5) + negZr s) 1 = some c ∧
      sumZr c = some 3 :=
  ring_proof_challenge_sum [1, 2] 3 1 (by decide) (by decide)

/-! #### Threshold verification (claims C4, C10) -/

/-- C10: the empty threshold set verifies.  With zero signatures the tag
map is empty, its size equals the signature count, no per-signature
verification runs and VerifyThresholdSignatures returns nil. -/
theorem verify_threshold_empty (o : Oracle F) (pp : PublicParams F)
    (m pfx : List Nat) (ds : Nat → F × F) :
    VerifyThresholdSignaturesM o pp m pfx ds [] = some none := rfl

/-- C4: threshold duplicate rejection.  For every signature list whose
number of distinct tag values d is smaller than the list length k,
VerifyThresholdSignatures returns the linkability error naming d and k;
the pair (σ, σ) is the instance d = 1, k = 2. -/
theorem verify_threshold_duplicates (o : Oracle F) (pp : PublicParams F)
    (m pfx : List Nat) (ds : Nat → F × F) (signatures : List (RingSig F))
    (hd : ((signatures.map (fun σ => σ.TagValue)).dedup).length
      < signatures.length) :
    VerifyThresholdSignaturesM o pp m pfx ds signatures =
      some (some ("signature set was signed by "
        ++ toString ((signatures.map (fun σ => σ.TagValue)).dedup).length
        ++ " out of " ++ toString signatures.length
        ++ " distinct signers")) := by
  unfold VerifyThresholdSignaturesM
  rw [if_pos (Nat.ne_of_lt hd)]

/-- Witness for C4: the duplicated pair (σ, σ) yields the
"1 out of 2 distinct signers" error. -/
theorem verify_threshold_duplicates_witness :
    VerifyThresholdSignaturesM oZ ppTriv [7] [9] (fun _ => (1, 1))
      [sigTriv, sigTriv] =
      some (some "signature set was signed by 1 out of 2 distinct signers") :=
  (verify_threshold_duplicates oZ ppTriv [7] [9] (fun _ => (1, 1))
    [sigTriv, sigTriv] (by decide)).trans (by decide)

/-! #### Fiat-Shamir digest-to-field map (claim C6) -/

theorem foldl_be_lt (l : List Nat) :
    ∀ a : Nat, (∀ b ∈ l, b < 256) →
      l.foldl (fun acc b => acc * 256 + b) a < (a + 1) * 256 ^ l.length := by
  induction l with
  | nil =>
    intro a _
    simp only [List.foldl_nil, List.length_nil, pow_zero, mul_one]
    omega
  | cons b l ih =>
    intro a hb
    have hblt : b < 256 := hb b (by simp)
    have h1 : l.foldl (fun acc b => acc * 256 + b) (a * 256 + b)
        < (a * 256 + b + 1) * 256 ^ l.length :=
      ih (a * 256 + b) (fun x hx => hb x (by simp [hx]))
    have h2 : (a * 256 + b + 1) * 256 ^ l.length
        ≤ ((a + 1) * 256) * 256 ^ l.length := by
      have : a * 256 + b + 1 ≤ (a + 1) * 256 := by nlinarith
      exact Nat.mul_le_mul_right _ this
    calc (b :: l).foldl (fun acc b => acc * 256 + b) a
        = l.foldl (fun acc b => acc * 256 + b) (a * 256 + b) := by
          simp [List.foldl_cons]
      _ < ((a + 1) * 256) * 256 ^ l.length := lt_of_lt_of_le h1 h2
      _ = (a + 1) * 256 ^ (b :: l).length := by
          simp [List.length_cons, pow_succ]; ring

theorem beUint64_lt (l : List Nat) (hb : ∀ b ∈ l, b < 256) :
    beUint64 l < 256 ^ l.length := by
  have h := foldl_be_lt l 0 hb
  simpa [beUint64] using h

/-- C6 counterexample: for the digest 0x01 00 ... 00 the limbs produced by
feFrom256Bits represent 2^56 (the first 8 digest bytes land in the least
significant limb), while the digest interpreted big-endian is 2^248, which
is its own residue mod q; the two differ. -/
theorem fe_from_bytes_counterexample :
    (feFrom256Bits dg1).map feValue ≠ some (beValue dg1 % qBN) := by decide

/-- C6 amended: feFrom256Bits loads the digest's four 8-byte words
big-endian into the limbs from least significant to most significant (the
first 8 digest bytes become the least significant limb), reduces the most
significant limb modulo q's top 64-bit limb q3L, and never takes the
subtract-q branch (it is dead code after the `%=`); the resulting value is
always below q, but it is not the big-endian digest value reduced mod q. -/
theorem fe_from_bytes_spec (bytes : List Nat) (h32 : bytes.length = 32)
    (hb : ∀ b ∈ bytes, b < 256) :
    feFrom256Bits bytes = some (beUint64 (bytes.take 8),
      beUint64 ((bytes.drop 8).take 8), beUint64 ((bytes.drop 16).take 8),
      beUint64 ((bytes.drop 24).take 8) % q3L) ∧
    feValue (beUint64 (bytes.take 8), beUint64 ((bytes.drop 8).take 8),
      beUint64 ((bytes.drop 16).take 8),
      beUint64 ((bytes.drop 24).take 8) % q3L) < qBN := by
  have hq3 : 0 < q3L := by decide
  constructor
  · unfold feFrom256Bits
    rw [if_neg (by simp [h32])]
    simp only
    rw [if_neg (not_not_intro (Or.inl (Nat.mod_lt _ hq3)))]
  · have l0 : (bytes.take 8).length = 8 := by
      simp [List.length_take, h32]
    have l1 : ((bytes.drop 8).take 8).length = 8 := by
      simp [List.length_take, List.length_drop, h32]
    have l2 : ((bytes.drop 16).take 8).length = 8 := by
      simp [List.length_take, List.length_drop, h32]
    have b0 : beUint64 (bytes.take 8) < 256 ^ 8 := by
      have h := beUint64_lt (bytes.take 8)
        (fun b h => hb b (List.take_subset _ _ h))
      rwa [l0] at h
    have b1 : beUint64 ((bytes.drop 8).take 8) < 256 ^ 8 := by
      have h := beUint64_lt ((bytes.drop 8).take 8)
        (fun b h => hb b (List.drop_subset _ _ (List.take_subset _ _ h)))
      rwa [l1] at h
    have b2 : beUint64 ((bytes.drop 16).take 8) < 256 ^ 8 := by
      have h := beUint64_lt ((bytes.drop 16).take 8)
        (fun b h => hb b (List.drop_subset _ _ (List.take_subset _ _ h)))
      rwa [l2] at h
    have b3 : beUint64 ((bytes.drop 24).take 8) % q3L < q3L :=
      Nat.mod_lt _ hq3
    unfold feValue qBN q3L at *
    norm_num at *
    omega

/-- Witness for C6 amended, at the concrete digest 0x01 00 ... 00. -/
theorem fe_from_bytes_spec_witness :
    feFrom256Bits dg1 = some (beUint64 (dg1.take 8),
      beUint64 ((dg1.drop 8).take 8), beUint64 ((dg1.drop 16).take 8),
      beUint64 ((dg1.drop 24).take 8) % q3L) ∧
    feValue (beUint64 (dg1.take 8), beUint64 ((dg1.drop 8).take 8),
      beUint64 ((dg1.drop 16).take 8),
      beUint64 ((dg1.drop 24).take 8) % q3L) < qBN :=
  fe_from_bytes_spec dg1 (by decide) (by decide)

/-! #### Evaluation lemmas for the Option-valued primitives -/

theorem optBind_some {α β : Type} (a : α) (f : α → Option β) :
    (do let x ← some a; f x) = f a := rfl

theorem innerProd_eq (v w : List F) (hl : v.length = w.length)
    (hn : v.length ≠ 0) : innerProd v w = some (ipv v w) := by
  unfold innerProd
  rw [if_neg (by omega), if_neg hn]

theorem vAdd_eq (v w : List F) (h : v.length ≤ w.length) :
    vAdd v w = some (List.zipWith (fun a b => a + b) v w) := by
  unfold vAdd
  rw [if_neg (by omega)]

theorem vMulv_eq (v xs : List F) (h : v.length ≤ xs.length) :
    vMulv v xs = some (List.zipWith (fun a b => a * b) v xs) := by
  unfold vMulv
  rw [if_neg (by omega)]

/-! #### Algebra of the inner pairing product -/

theorem ipv_nil_left (w : List F) : ipv [] w = 0 := rfl

theorem ipv_cons (a b : F) (v w : List F) :
    ipv (a :: v) (b :: w) = a * b + ipv v w := by
  simp [ipv]

theorem ipv_append (as bs cs ds : List F) (h : as.length = bs.length) :
    ipv (as ++ cs) (bs ++ ds) = ipv as bs + ipv cs ds := by
  unfold ipv
  rw [List.zipWith_append _ _ _ _ _ h, List.sum_append]

theorem ipv_mul_left (v w : List F) (x : F) :
    ipv (vMul v x) w = x * ipv v w := by
  induction v generalizing w with
  | nil => simp [ipv, vMul]
  | cons a v ih =>
    match w with
    | [] => simp [ipv, vMul]
    | b :: w =>
      simp only [vMul, List.map_cons] at *
      rw [ipv_cons, ipv_cons, ih]
      ring

theorem ipv_mul_right (v w : List F) (x : F) :
    ipv v (vMul w x) = x * ipv v w := by
  induction v generalizing w with
  | nil => simp [ipv, vMul]
  | cons a v ih =>
    match w with
    | [] => simp [ipv, vMul]
    | b :: w =>
      simp only [vMul, List.map_cons] at *
      rw [ipv_cons, ipv_cons, ih]
      ring

theorem ipv_add_left (as bs cs : List F) (h : as.length = bs.length) :
    ipv (List.zipWith (fun a b => a + b) as bs) cs =
      ipv as cs + ipv bs cs := by
  induction as generalizing bs cs with
  | nil =>
    match bs with
    | [] => simp [ipv]
    | _ :: _ => simp at h
  | cons a as ih =>
    match bs with
    | [] => simp at h
    | b :: bs =>
      match cs with
      | [] => simp [ipv]
      | c :: cs =>
        simp only [List.zipWith_cons_cons]
        rw [ipv_cons, ipv_cons, ipv_cons, ih bs cs (by simpa using h)]
        ring

theorem ipv_add_right (as bs cs : List F) (h : bs.length = cs.length) :
    ipv as (List.zipWith (fun a b => a + b) bs cs) =
      ipv as bs + ipv as cs := by
  induction as generalizing bs cs with
  | nil => simp [ipv]
  | cons a as ih =>
    match bs with
    | [] =>
      match cs with
      | [] => simp [ipv]
      | _ :: _ => simp at h
    | b :: bs =>
      match cs with
      | [] => simp at h
      | c :: cs =>
        simp only [List.zipWith_cons_cons]
        rw [ipv_cons, ipv_cons, ipv_cons, ih bs cs (by simpa using h)]
        ring

theorem ipv_neg_left (v w : List F) : ipv (vNeg v) w = -(ipv v w) := by
  induction v generalizing w with
  | nil => simp [ipv, vNeg]
  | cons a v ih =>
    match w with
    | [] => simp [ipv, vNeg]
    | b :: w =>
      simp only [vNeg, List.map_cons] at *
      rw [ipv_cons, ipv_cons, ih]
      ring

theorem ipv_replicate_left (n : Nat) (x : F) (w : List F)
    (h : w.length = n) : ipv (List.replicate n x) w = x * w.sum := by
  induction n generalizing w with
  | zero =>
    match w with
    | [] => simp [ipv]
    | _ :: _ => simp at h
  | succ n ih =>
    match w with
    | [] => simp at h
    | b :: w =>
      rw [List.replicate_succ, ipv_cons, ih w (by simpa using h), List.sum_cons]
      ring

theorem zip_one_mul (c : List F) (n : Nat) (h : n ≤ c.length) :
    List.zipWith (fun a b => a * b) (List.replicate n (1 : F)) c =
      c.take n := by
  induction n generalizing c with
  | zero => simp
  | succ n ih =>
    match c with
    | [] => simp at h
    | b :: c =>
      rw [List.replicate_succ, List.zipWith_cons_cons, ih c (by simpa using h)]
      simp

/-! #### One round of the Dory reduction: the prover succeeds, the
verifier recomputes the same reduced commitment, and the commitment
invariant is preserved -/

theorem proverRound_spec (o : Oracle F) (pp : PP F) (w : Witness F)
    (cmt : Commitment F) (m : Nat) (hm : 1 ≤ m)
    (hΓ1 : pp.Γ1.length = 2 * m) (hΓ2 : pp.Γ2.length = 2 * m)
    (hV1 : w.V1.length = 2 * m) (hV2 : w.V2.length = 2 * m)
    (hP1 : pp.rpp.Γ1Prime.length = m) (hP2 : pp.rpp.Γ2Prime.length = m)
    (hro1 : ∀ s, o.roStep1 s ≠ 0) (hro2 : ∀ s, o.roStep2 s ≠ 0)
    (hC : cmt.C = ipv w.V1 w.V2) (hD1 : cmt.D1 = ipv w.V1 pp.Γ2)
    (hD2 : cmt.D2 = ipv pp.Γ1 w.V2) (hχ : pp.χ = ipv pp.Γ1 pp.Γ2)
    (hΔ1L : pp.rpp.Δ1L = ipv (pp.Γ1.take m) pp.rpp.Γ2Prime)
    (hΔ1R : pp.rpp.Δ1R = ipv (pp.Γ1.drop m) pp.rpp.Γ2Prime)
    (hΔ2L : pp.rpp.Δ2L = ipv pp.rpp.Γ1Prime (pp.Γ2.take m))
    (hΔ2R : pp.rpp.Δ2R = ipv pp.rpp.Γ1Prime (pp.Γ2.drop m)) :
    ∃ s1 s2 w2 cmt2,
      proverRound o pp w cmt = some (s1, s2, w2, cmt2) ∧
      verifierRound o pp cmt s1 s2 = cmt2 ∧
      w2.V1.length = m ∧ w2.V2.length = m ∧
      cmt2.C = ipv w2.V1 w2.V2 ∧
      cmt2.D1 = ipv w2.V1 pp.rpp.Γ2Prime ∧
      cmt2.D2 = ipv pp.rpp.Γ1Prime w2.V2 := by
  have hmm : pp.Γ1.length / 2 = m := by omega
  set s1v : Step1E F := ⟨pp.digest, ipv (w.V1.take m) pp.rpp.Γ2Prime,
    ipv (w.V1.drop m) pp.rpp.Γ2Prime, ipv pp.rpp.Γ1Prime (w.V2.take m),
    ipv pp.rpp.Γ1Prime (w.V2.drop m), cmt.C, cmt.D1, cmt.D2⟩ with hs1v
  set β := o.roStep1 s1v with hβv
  set u1 := List.zipWith (fun a b => a + b) w.V1 (vMul pp.Γ1 β) with hu1v
  set u2 := List.zipWith (fun a b => a + b) w.V2 (vMul pp.Γ2 β⁻¹) with hu2v
  have hu1l : u1.length = 2 * m := by
    rw [hu1v]
    simp [List.length_zipWith, vMul, hV1, hΓ1]
  have hu2l : u2.length = 2 * m := by
    rw [hu2v]
    simp [List.length_zipWith, vMul, hV2, hΓ2]
  set Cp := ipv (u1.take m) (u2.drop m) with hCpv
  set Cm := ipv (u1.drop m) (u2.take m) with hCmv
  set s2v : Step2E F := ⟨o.dStep1 s1v, Cp, Cm⟩ with hs2v
  set α := o.roStep2 s2v with hαv
  set w2v : Witness F :=
    ⟨List.zipWith (fun a b => a + b) (vMul (u1.take m) α) (u1.drop m),
     List.zipWith (fun a b => a + b) (vMul (u2.take m) α⁻¹) (u2.drop m)⟩
    with hw2v
  set cmt2v : Commitment F :=
    ⟨cmt.C + pp.χ + cmt.D2 * β + cmt.D1 * β⁻¹ + Cp * α + Cm * α⁻¹,
     ipv (w.V1.take m) pp.rpp.Γ2Prime * α + ipv (w.V1.drop m) pp.rpp.Γ2Prime
       + pp.rpp.Δ1L * α * β + pp.rpp.Δ1R * β,
     ipv pp.rpp.Γ1Prime (w.V2.take m) * α⁻¹
       + ipv pp.rpp.Γ1Prime (w.V2.drop m)
       + pp.rpp.Δ2L * α⁻¹ * β⁻¹ + pp.rpp.Δ2R * β⁻¹⟩ with hcmt2v
  have hβ0 : β ≠ 0 := by rw [hβv]; exact hro1 s1v
  have hα0 : α ≠ 0 := by rw [hαv]; exact hro2 s2v
  have e1 : innerProd (w.V1.take m) pp.rpp.Γ2Prime
      = some (ipv (w.V1.take m) pp.rpp.Γ2Prime) :=
    innerProd_eq _ _ (by simp [List.length_take, hV1, hP2]; omega)
      (by simp [List.length_take, hV1]; omega)
  have e2 : innerProd (w.V1.drop m) pp.rpp.Γ2Prime
      = some (ipv (w.V1.drop m) pp.rpp.Γ2Prime) :=
    innerProd_eq _ _ (by simp [List.length_drop, hV1, hP2]; omega)
      (by simp [List.length_drop, hV1]; omega)
  have e3 : innerProd pp.rpp.Γ1Prime (w.V2.take m)
      = some (ipv pp.rpp.Γ1Prime (w.V2.take m)) :=
    innerProd_eq _ _ (by simp [List.length_take, hV2, hP1]; omega)
      (by simp [hP1]; omega)
  have e4 : innerProd pp.rpp.Γ1Prime (w.V2.drop m)
      = some (ipv pp.rpp.Γ1Prime (w.V2.drop m)) :=
    innerProd_eq _ _ (by simp [List.length_drop, hV2, hP1]; omega)
      (by simp [hP1]; omega)
  have ea1 : vAdd w.V1 (vMul pp.Γ1 β) = some u1 := by
    rw [hu1v]; exact vAdd_eq _ _ (by simp [vMul, hV1, hΓ1])
  have ea2 : vAdd w.V2 (vMul pp.Γ2 β⁻¹) = some u2 := by
    rw [hu2v]; exact vAdd_eq _ _ (by simp [vMul, hV2, hΓ2])
  have e5 : innerProd (u1.take m) (u2.drop m) = some Cp := by
    rw [hCpv]
    exact innerProd_eq _ _
      (by simp [List.length_take, List.length_drop, hu1l, hu2l]; omega)
      (by simp [List.length_take, hu1l]; omega)
  have e6 : innerProd (u1.drop m) (u2.take m) = some Cm := by
    rw [hCmv]
    exact innerProd_eq _ _
      (by simp [List.length_take, List.length_drop, hu1l, hu2l]; omega)
      (by simp [List.length_drop, hu1l]; omega)
  have ea3 : vAdd (vMul (u1.take m) α) (u1.drop m)
      = some (List.zipWith (fun a b => a + b) (vMul (u1.take m) α)
          (u1.drop m)) :=
    vAdd_eq _ _
      (by simp [vMul, List.length_take, List.length_drop, hu1l]; omega)
  have ea4 : vAdd (vMul (u2.take m) α⁻¹) (u2.drop m)
      = some (List.zipWith (fun a b => a + b) (vMul (u2.take m) α⁻¹)
          (u2.drop m)) :=
    vAdd_eq _ _
      (by simp [vMul, List.length_take, List.length_drop, hu2l]; omega)
  refine ⟨s1v, s2v, w2v, cmt2v, ?_, ?_, ?_, ?_, ?_, ?_, ?_⟩
  · simp only [proverRound, hmm, e1, e2, e3, e4, optBind_some]
    simp only [← hs1v, ← hβv, ea1, ea2, optBind_some]
    simp only [← hu1v, ← hu2v, e5, e6, optBind_some]
    simp only [← hs2v, ← hαv, ea3, ea4, optBind_some]
  · simp only [verifierRound, hs1v, hs2v, hcmt2v, hβv, hαv]
  · rw [hw2v]
    simp only [List.length_zipWith, vMul, List.length_map,
      List.length_take, List.length_drop, hu1l]
    omega
  · rw [hw2v]
    simp only [List.length_zipWith, vMul, List.length_map,
      List.length_take, List.length_drop, hu2l]
    omega
  · simp only [hcmt2v, hw2v]
    have L1 : (vMul (u1.take m) α).length = (u1.drop m).length := by
      simp only [vMul, List.length_map, List.length_take,
        List.length_drop, hu1l]
      omega
    have L2 : (vMul (u2.take m) α⁻¹).length = (u2.drop m).length := by
      simp only [vMul, List.length_map, List.length_take,
        List.length_drop, hu2l]
      omega
    rw [ipv_add_left _ _ _ L1, ipv_add_right _ _ _ L2,
      ipv_add_right _ _ _ L2]
    simp only [ipv_mul_left, ipv_mul_right]
    have Lapp : (u1.take m).length = (u2.take m).length := by
      simp only [List.length_take, hu1l, hu2l]
    have hsp : ipv (u1.take m) (u2.take m) + ipv (u1.drop m) (u2.drop m)
        = ipv u1 u2 := by
      have e := ipv_append (u1.take m) (u2.take m) (u1.drop m)
        (u2.drop m) Lapp
      rw [List.take_append_drop, List.take_append_drop] at e
      exact e.symm
    have L3 : w.V1.length = (vMul pp.Γ1 β).length := by
      simp only [vMul, List.length_map, hV1, hΓ1]
    have L4 : w.V2.length = (vMul pp.Γ2 β⁻¹).length := by
      simp only [vMul, List.length_map, hV2, hΓ2]
    have hexp : ipv u1 u2 = ipv w.V1 w.V2 + β⁻¹ * ipv w.V1 pp.Γ2
        + β * ipv pp.Γ1 w.V2 + β * (β⁻¹ * ipv pp.Γ1 pp.Γ2) := by
      rw [hu1v, hu2v, ipv_add_left _ _ _ L3, ipv_add_right _ _ _ L4,
        ipv_add_right _ _ _ L4]
      simp only [ipv_mul_left, ipv_mul_right]
      ring
    have key : ipv (u1.take m) (u2.take m) + ipv (u1.drop m) (u2.drop m)
        = ipv w.V1 w.V2 + β⁻¹ * ipv w.V1 pp.Γ2 + β * ipv pp.Γ1 w.V2
          + β * (β⁻¹ * ipv pp.Γ1 pp.Γ2) := hsp.trans hexp
    have hββ : β * β⁻¹ = 1 := mul_inv_cancel₀ hβ0
    have hαα : α * α⁻¹ = 1 := mul_inv_cancel₀ hα0
    rw [hC, hD1, hD2, hχ, hCpv, hCmv]
    linear_combination (-1 : F) * key - ipv pp.Γ1 pp.Γ2 * hββ
      - ipv (u1.take m) (u2.take m) * hαα
  · simp only [hcmt2v, hw2v]
    have L1 : (vMul (u1.take m) α).length = (u1.drop m).length := by
      simp only [vMul, List.length_map, List.length_take,
        List.length_drop, hu1l]
      omega
    rw [ipv_add_left _ _ _ L1]
    simp only [ipv_mul_left]
    have hta : u1.take m = List.zipWith (fun a b => a + b) (w.V1.take m)
        (vMul (pp.Γ1.take m) β) := by
      rw [hu1v, List.take_zipWith]
      simp [vMul, List.map_take]
    have htd : u1.drop m = List.zipWith (fun a b => a + b) (w.V1.drop m)
        (vMul (pp.Γ1.drop m) β) := by
      rw [hu1v, List.drop_zipWith]
      simp [vMul, List.map_drop]
    have L6 : (w.V1.take m).length = (vMul (pp.Γ1.take m) β).length := by
      simp only [vMul, List.length_map, List.length_take, hV1, hΓ1]
    have L7 : (w.V1.drop m).length = (vMul (pp.Γ1.drop m) β).length := by
      simp only [vMul, List.length_map, List.length_drop, hV1, hΓ1]
    rw [hta, htd, ipv_add_left _ _ _ L6, ipv_add_left _ _ _ L7]
    simp only [ipv_mul_left, ipv_mul_right]
    rw [hΔ1L, hΔ1R]
    ring
  · simp only [hcmt2v, hw2v]
    have L2 : (vMul (u2.take m) α⁻¹).length = (u2.drop m).length := by
      simp only [vMul, List.length_map, List.length_take,
        List.length_drop, hu2l]
      omega
    rw [ipv_add_right _ _ _ L2]
    simp only [ipv_mul_right]
    have htc : u2.take m = List.zipWith (fun a b => a + b) (w.V2.take m)
        (vMul (pp.Γ2.take m) β⁻¹) := by
      rw [hu2v, List.take_zipWith]
      simp [vMul, List.map_take]
    have htd2 : u2.drop m = List.zipWith (fun a b => a + b) (w.V2.drop m)
        (vMul (pp.Γ2.drop m) β⁻¹) := by
      rw [hu2v, List.drop_zipWith]
      simp [vMul, List.map_drop]
    have L8 : (w.V2.take m).length = (vMul (pp.Γ2.take m) β⁻¹).length := by
      simp only [vMul, List.length_map, List.length_take, hV2, hΓ2]
    have L9 : (w.V2.drop m).length = (vMul (pp.Γ2.drop m) β⁻¹).length := by
      simp only [vMul, List.length_map, List.length_drop, hV2, hΓ2]
    rw [htc, htd2, ipv_add_right _ _ _ L8, ipv_add_right _ _ _ L9]
    simp only [ipv_mul_right]
    rw [hΔ2L, hΔ2R]
    ring

theorem ipv_single (a b : F) : ipv [a] [b] = a * b := by simp [ipv]

theorem obind_some {α β : Type} (a : α) (f : α → Option β) :
    Option.bind (some a) f = f a := rfl

theorem reduceM_cons (o : Oracle F) (pp : PP F) (rest : List (PP F))
    (w : Witness F) (cmt : Commitment F) :
    reduceM o (pp :: rest) w cmt =
      (proverRound o pp w cmt).bind (fun q =>
        if pp.Γ1.length / 2 = 1 then
          rest.head?.bind (fun pp2 =>
            some ([q.1], [q.2.1], (⟨pp2, q.2.2.1.V1, q.2.2.1.V2⟩ : SPPE F)))
        else
          (reduceM o rest q.2.2.1 q.2.2.2).bind (fun r =>
            some (q.1 :: r.1, q.2.1 :: r.2.1, r.2.2))) := rfl

theorem verifyReduceM_cons (o : Oracle F) (pp pp2 : PP F)
    (rest : List (PP F)) (cmt : Commitment F) (s1s : List (Step1E F))
    (s2s : List (Step2E F)) (f : SPPE F) (d : F) :
    verifyReduceM o (pp :: pp2 :: rest) cmt s1s s2s f d =
      s1s.head?.bind (fun fp1 => s2s.head?.bind (fun fp2 =>
        verifyReduceM o (pp2 :: rest) (verifierRound o pp cmt fp1 fp2)
          s1s.tail s2s.tail f d)) := rfl

theorem verifyReduceM_single (o : Oracle F) (pp : PP F)
    (cmt : Commitment F) (s1s : List (Step1E F)) (s2s : List (Step2E F))
    (f : SPPE F) (d : F) :
    verifyReduceM o [pp] cmt s1s s2s f d = sppeVerify f cmt d := rfl

/-- Completeness of the Dory reduction along a valid chain: the prover
succeeds and the verifier accepts, for every nonzero base-case scalar d
and whenever every Fiat-Shamir challenge is nonzero. -/
theorem reduceM_verify_ok (o : Oracle F)
    (hro1 : ∀ s, o.roStep1 s ≠ 0) (hro2 : ∀ s, o.roStep2 s ≠ 0) :
    ∀ (k : Nat) (pp : PP F) (rest : List (PP F)) (w : Witness F)
      (cmt : Commitment F) (d : F), d ≠ 0 → 1 ≤ k →
      validChain (pp :: rest) k →
      w.V1.length = 2 ^ k → w.V2.length = 2 ^ k →
      cmt.C = ipv w.V1 w.V2 → cmt.D1 = ipv w.V1 pp.Γ2 →
      cmt.D2 = ipv pp.Γ1 w.V2 →
      ∃ s1 s2 f, reduceM o (pp :: rest) w cmt = some (s1, s2, f) ∧
        verifyReduceM o (pp :: rest) cmt s1 s2 f d = some none := by
  intro k
  induction k with
  | zero =>
    intro pp rest w cmt d hd hk
    exact (Nat.not_succ_le_zero 0 hk).elim
  | succ k ih =>
    intro pp rest w cmt d hd hk hvc hV1 hV2 hC hD1 hD2
    cases rest with
    | nil =>
      simp only [validChain] at hvc
      exact hvc.2.elim
    | cons pp2 rest2 =>
      simp only [validChain] at hvc
      obtain ⟨hwf, hg1link, hg2link, hvc2⟩ := hvc
      simp only [wfPP] at hwf
      obtain ⟨hl1, hl2, hχe, hbase, hstep⟩ := hwf
      obtain ⟨hp1l, hp2l, hd1l, hd1r, hd2l, hd2r⟩ := hstep k rfl
      have h2m : (2 : Nat) ^ (k + 1) = 2 * 2 ^ k := by
        rw [pow_succ]; ring
      have hm1 : 1 ≤ 2 ^ k := Nat.one_le_two_pow
      obtain ⟨s1, s2, w2, cmt2, hpr, hvr, hw2l1, hw2l2, hc2, hd21, hd22⟩ :=
        proverRound_spec o pp w cmt (2 ^ k) hm1 (hl1.trans h2m)
          (hl2.trans h2m) (hV1.trans h2m) (hV2.trans h2m) hp1l hp2l
          hro1 hro2 hC hD1 hD2 hχe hd1l hd1r hd2l hd2r
      have hΓdiv : pp.Γ1.length / 2 = 2 ^ k := by
        rw [hl1, h2m]; omega
      by_cases hk0 : k = 0
      · subst hk0
        cases rest2 with
        | cons pp3 rest3 =>
          simp only [validChain] at hvc2
          exact hvc2.2.elim
        | nil =>
          simp only [validChain] at hvc2
          obtain ⟨hwf2, -⟩ := hvc2
          simp only [wfPP] at hwf2
          obtain ⟨hl21, hl22, hχ2, -, -⟩ := hwf2
          rw [pow_zero] at hw2l1 hw2l2
          rw [pow_zero] at hl21 hl22
          obtain ⟨e1, he1⟩ := List.length_eq_one.mp hw2l1
          obtain ⟨e2, he2⟩ := List.length_eq_one.mp hw2l2
          obtain ⟨γ1, hγ1⟩ := List.length_eq_one.mp hl21
          obtain ⟨γ2, hγ2⟩ := List.length_eq_one.mp hl22
          refine ⟨[s1], [s2], ⟨pp2, w2.V1, w2.V2⟩, ?_, ?_⟩
          · rw [reduceM_cons, hpr]
            simp only [obind_some]
            rw [if_pos (by rw [hΓdiv]; norm_num)]
            rfl
          · rw [verifyReduceM_cons]
            simp only [List.head?_cons, obind_some, List.tail_cons]
            rw [hvr, verifyReduceM_single]
            have hcheck : eP (e1 + γ1 * d) (e2 + γ2 * d⁻¹)
                = pp2.χ + cmt2.C + cmt2.D2 * d + cmt2.D1 * d⁻¹ := by
              rw [hχ2, hc2, hd21, hd22, hg2link, hg1link, he1, he2, hγ1,
                hγ2]
              simp only [ipv_single, eP]
              linear_combination (γ1 * γ2) * (mul_inv_cancel₀ hd)
            simp only [sppeVerify, he1, he2, hγ1, hγ2, List.head?_cons,
              optBind_some]
            rw [if_pos hcheck]
      · have hk1 : 1 ≤ k := by omega
        have h1lt : (1 : Nat) < 2 ^ k := by
          calc (1 : Nat) = 2 ^ 0 := rfl
          _ < 2 ^ k := Nat.pow_lt_pow_right (by omega) (by omega)
        obtain ⟨r1, r2, f, hred, hver⟩ :=
          ih pp2 rest2 w2 cmt2 d hd hk1 hvc2 hw2l1 hw2l2 hc2
            (by rw [hd21, hg2link]) (by rw [hd22, hg1link])
        refine ⟨s1 :: r1, s2 :: r2, f, ?_, ?_⟩
        · rw [reduceM_cons, hpr]
          simp only [obind_some]
          rw [if_neg (by rw [hΓdiv]; omega)]
          rw [hred]
          rfl
        · rw [verifyReduceM_cons]
          simp only [List.head?_cons, obind_some, List.tail_cons]
          rw [hvr]
          exact hver

/-! #### The generated parameter chain is well formed (claim C8, and the
chain facts used by C1/C2) -/

theorem randomVec_length (gf : Nat → Nat → F) (n : Nat) :
    (randomVec gf n).length = n := by simp [randomVec]

theorem reducePPModel_one (g1f g2f : Nat → Nat → F) (Γ1 Γ2 : List F) :
    reducePPModel g1f g2f Γ1 Γ2 1 = some ⟨[], [], 0, 0, 0, 0⟩ := by
  simp [reducePPModel]

theorem reducePPModel_step (g1f g2f : Nat → Nat → F) (Γ1 Γ2 : List F)
    (k2 : Nat) (h1 : Γ1.length = 2 ^ (k2 + 1))
    (h2 : Γ2.length = 2 ^ (k2 + 1)) :
    reducePPModel g1f g2f Γ1 Γ2 (2 ^ (k2 + 1)) = some
      ⟨randomVec g1f (2 ^ k2), randomVec g2f (2 ^ k2),
       ipv (Γ1.drop (2 ^ k2)) (randomVec g2f (2 ^ k2)),
       ipv (Γ1.take (2 ^ k2)) (randomVec g2f (2 ^ k2)),
       ipv (randomVec g1f (2 ^ k2)) (Γ2.drop (2 ^ k2)),
       ipv (randomVec g1f (2 ^ k2)) (Γ2.take (2 ^ k2))⟩ := by
  have hone : (1 : Nat) ≤ 2 ^ k2 := Nat.one_le_two_pow
  have hne : (2 : Nat) ^ (k2 + 1) ≠ 1 := by
    have := Nat.one_lt_two_pow_iff.mpr (Nat.succ_ne_zero k2)
    omega
  have hdiv : (2 : Nat) ^ (k2 + 1) / 2 = 2 ^ k2 := by rw [pow_succ]; omega
  have hle : (2 : Nat) ^ k2 ≤ 2 ^ (k2 + 1) := by rw [pow_succ]; omega
  unfold reducePPModel
  rw [if_neg hne]
  simp only [hdiv]
  rw [innerProd_eq _ _
      (by simp only [List.length_take, randomVec_length, h1]; omega)
      (by simp only [List.length_take, h1]; omega),
    innerProd_eq _ _
      (by simp only [List.length_drop, randomVec_length, h1]; omega)
      (by simp only [List.length_drop, h1]; omega),
    innerProd_eq _ _
      (by simp only [List.length_take, randomVec_length, h2]; omega)
      (by simp only [randomVec_length]; omega),
    innerProd_eq _ _
      (by simp only [List.length_drop, randomVec_length, h2]; omega)
      (by simp only [randomVec_length]; omega)]
  rfl

theorem NewPublicParamsM_wf (o : Oracle F) (g1f g2f : Nat → Nat → F)
    (k : Nat) :
    ∃ pp, NewPublicParamsM o g1f g2f (2 ^ k) = some pp ∧ wfPP pp k := by
  have hχ : innerProd (randomVec g1f (2 ^ k)) (randomVec g2f (2 ^ k))
      = some (ipv (randomVec g1f (2 ^ k)) (randomVec g2f (2 ^ k))) :=
    innerProd_eq _ _ (by simp only [randomVec_length])
      (by simp only [randomVec_length]
          have : (1 : Nat) ≤ 2 ^ k := Nat.one_le_two_pow
          omega)
  match k with
  | 0 =>
    refine ⟨⟨ppDigestModel o [] ⟨[], [], 0, 0, 0, 0⟩
        (ipv (randomVec g1f (2 ^ 0)) (randomVec g2f (2 ^ 0)))
        (randomVec g1f (2 ^ 0)) (randomVec g2f (2 ^ 0)),
      ⟨[], [], 0, 0, 0, 0⟩, randomVec g1f (2 ^ 0), randomVec g2f (2 ^ 0),
      ipv (randomVec g1f (2 ^ 0)) (randomVec g2f (2 ^ 0))⟩, ?_, ?_⟩
    · have hχ0 := hχ
      simp only [pow_zero] at hχ0
      unfold NewPublicParamsM
      simp only [pow_zero, hχ0, optBind_some, reducePPModel_one]
    · refine ⟨by simp only [randomVec_length],
        by simp only [randomVec_length], rfl, ?_, ?_⟩
      · intro _; exact ⟨rfl, rfl⟩
      · intro k2 h; exact absurd h (by omega)
  | k2 + 1 =>
    refine ⟨⟨ppDigestModel o []
        ⟨randomVec g1f (2 ^ k2), randomVec g2f (2 ^ k2),
         ipv ((randomVec g1f (2 ^ (k2 + 1))).drop (2 ^ k2))
           (randomVec g2f (2 ^ k2)),
         ipv ((randomVec g1f (2 ^ (k2 + 1))).take (2 ^ k2))
           (randomVec g2f (2 ^ k2)),
         ipv (randomVec g1f (2 ^ k2))
           ((randomVec g2f (2 ^ (k2 + 1))).drop (2 ^ k2)),
         ipv (randomVec g1f (2 ^ k2))
           ((randomVec g2f (2 ^ (k2 + 1))).take (2 ^ k2))⟩
        (ipv (randomVec g1f (2 ^ (k2 + 1))) (randomVec g2f (2 ^ (k2 + 1))))
        (randomVec g1f (2 ^ (k2 + 1))) (randomVec g2f (2 ^ (k2 + 1))),
      ⟨randomVec g1f (2 ^ k2), randomVec g2f (2 ^ k2),
       ipv ((randomVec g1f (2 ^ (k2 + 1))).drop (2 ^ k2))
         (randomVec g2f (2 ^ k2)),
       ipv ((randomVec g1f (2 ^ (k2 + 1))).take (2 ^ k2))
         (randomVec g2f (2 ^ k2)),
       ipv (randomVec g1f (2 ^ k2))
         ((randomVec g2f (2 ^ (k2 + 1))).drop (2 ^ k2)),
       ipv (randomVec g1f (2 ^ k2))
         ((randomVec g2f (2 ^ (k2 + 1))).take (2 ^ k2))⟩,
      randomVec g1f (2 ^ (k2 + 1)), randomVec g2f (2 ^ (k2 + 1)),
      ipv (randomVec g1f (2 ^ (k2 + 1))) (randomVec g2f (2 ^ (k2 + 1)))⟩,
      ?_, ?_⟩
    · unfold NewPublicParamsM
      simp only [hχ, optBind_some,
        reducePPModel_step g1f g2f (randomVec g1f (2 ^ (k2 + 1)))
          (randomVec g2f (2 ^ (k2 + 1))) k2
          (randomVec_length g1f (2 ^ (k2 + 1)))
          (randomVec_length g2f (2 ^ (k2 + 1)))]
    · refine ⟨by simp only [randomVec_length],
        by simp only [randomVec_length], rfl, ?_, ?_⟩
      · intro h; exact absurd h (by omega)
      · intro k3 h
        have hk : k3 = k2 := by omega
        subst hk
        exact ⟨randomVec_length _ _, randomVec_length _ _, rfl, rfl, rfl,
          rfl⟩

theorem NewPublicParamsFrom_wf (o : Oracle F) (g1f g2f : Nat → Nat → F)
    (pp : PP F) (k : Nat) (hwf : wfPP pp (k + 1)) :
    ∃ pp2, NewPublicParamsFrom o g1f g2f pp (2 ^ k) = some pp2 ∧
      wfPP pp2 k ∧ pp.rpp.Γ1Prime = pp2.Γ1 ∧ pp.rpp.Γ2Prime = pp2.Γ2 := by
  simp only [wfPP] at hwf
  obtain ⟨hl1, hl2, hχe, -, hstep⟩ := hwf
  obtain ⟨hp1l, hp2l, -, -, -, -⟩ := hstep k rfl
  have h2m : (2 : Nat) ^ (k + 1) = 2 * 2 ^ k := by rw [pow_succ]; ring
  have hone : (1 : Nat) ≤ 2 ^ k := Nat.one_le_two_pow
  have hassert :
      ¬(pp.Γ1.length ≠ 2 * 2 ^ k ∨ pp.Γ2.length ≠ 2 * 2 ^ k) := by
    omega
  have hχ2 : innerProd pp.rpp.Γ1Prime pp.rpp.Γ2Prime
      = some (ipv pp.rpp.Γ1Prime pp.rpp.Γ2Prime) :=
    innerProd_eq _ _ (by rw [hp1l, hp2l]) (by rw [hp1l]; omega)
  cases k with
  | zero =>
    refine ⟨⟨ppDigestModel o pp.digest ⟨[], [], 0, 0, 0, 0⟩
        (ipv pp.rpp.Γ1Prime pp.rpp.Γ2Prime) pp.rpp.Γ1Prime
        pp.rpp.Γ2Prime,
      ⟨[], [], 0, 0, 0, 0⟩, pp.rpp.Γ1Prime, pp.rpp.Γ2Prime,
      ipv pp.rpp.Γ1Prime pp.rpp.Γ2Prime⟩, ?_, ?_, rfl, rfl⟩
    · unfold NewPublicParamsFrom
      rw [if_neg hassert]
      simp only [hχ2, optBind_some, show (2 : Nat) ^ 0 = 1 from rfl,
        reducePPModel_one]
    · exact ⟨by rw [hp1l], by rw [hp2l], rfl, fun _ => ⟨rfl, rfl⟩,
        fun k2 h => absurd h (by omega)⟩
  | succ k2 =>
    have hred := reducePPModel_step g1f g2f pp.rpp.Γ1Prime
      pp.rpp.Γ2Prime k2 hp1l hp2l
    refine ⟨⟨ppDigestModel o pp.digest
        ⟨randomVec g1f (2 ^ k2), randomVec g2f (2 ^ k2),
         ipv (pp.rpp.Γ1Prime.drop (2 ^ k2)) (randomVec g2f (2 ^ k2)),
         ipv (pp.rpp.Γ1Prime.take (2 ^ k2)) (randomVec g2f (2 ^ k2)),
         ipv (randomVec g1f (2 ^ k2)) (pp.rpp.Γ2Prime.drop (2 ^ k2)),
         ipv (randomVec g1f (2 ^ k2)) (pp.rpp.Γ2Prime.take (2 ^ k2))⟩
        (ipv pp.rpp.Γ1Prime pp.rpp.Γ2Prime) pp.rpp.Γ1Prime
        pp.rpp.Γ2Prime,
      ⟨randomVec g1f (2 ^ k2), randomVec g2f (2 ^ k2),
       ipv (pp.rpp.Γ1Prime.drop (2 ^ k2)) (randomVec g2f (2 ^ k2)),
       ipv (pp.rpp.Γ1Prime.take (2 ^ k2)) (randomVec g2f (2 ^ k2)),
       ipv (randomVec g1f (2 ^ k2)) (pp.rpp.Γ2Prime.drop (2 ^ k2)),
       ipv (randomVec g1f (2 ^ k2)) (pp.rpp.Γ2Prime.take (2 ^ k2))⟩,
      pp.rpp.Γ1Prime, pp.rpp.Γ2Prime,
      ipv pp.rpp.Γ1Prime pp.rpp.Γ2Prime⟩, ?_, ?_, rfl, rfl⟩
    · unfold NewPublicParamsFrom
      rw [if_neg hassert]
      simp only [hχ2, optBind_some, hred]
    · refine ⟨by rw [hp1l], by rw [hp2l], rfl,
        fun h => absurd h (by omega), ?_⟩
      intro k3 h
      have hk : k3 = k2 := by omega
      subst hk
      exact ⟨randomVec_length _ _, randomVec_length _ _, rfl, rfl, rfl,
        rfl⟩

theorem genChainAux_ok (o : Oracle F) (g1f g2f : Nat → Nat → F) :
    ∀ (k fuel : Nat) (pp : PP F), k < fuel → wfPP pp k →
      ∃ rest, genChainAux o g1f g2f fuel pp (2 ^ k) = some (pp :: rest) ∧
        validChain (pp :: rest) k := by
  intro k
  induction k with
  | zero =>
    intro fuel pp hf hwf
    match fuel, hf with
    | fuel + 1, _ =>
      refine ⟨[], ?_, ?_⟩
      · unfold genChainAux
        rw [show (2 : Nat) ^ 0 = 1 from rfl, if_neg (by omega),
          if_pos (by omega)]
      · exact ⟨hwf, trivial⟩
  | succ k2 ih =>
    intro fuel pp hf hwf
    match fuel, hf with
    | fuel + 1, hf =>
      obtain ⟨pp2, hnew, hwf2, hlink1, hlink2⟩ :=
        NewPublicParamsFrom_wf o g1f g2f pp k2 hwf
      obtain ⟨rest2, hgen, hvc2⟩ := ih fuel pp2 (by omega) hwf2
      have hdiv : (2 : Nat) ^ (k2 + 1) / 2 = 2 ^ k2 := by
        rw [pow_succ]; omega
      have h1lt : (1 : Nat) < 2 ^ (k2 + 1) :=
        Nat.one_lt_two_pow_iff.mpr (by omega)
      have hone : (1 : Nat) ≤ 2 ^ k2 := Nat.one_le_two_pow
      refine ⟨pp2 :: rest2, ?_, ?_⟩
      · unfold genChainAux
        rw [if_neg (by omega), if_neg (by omega)]
        simp only [hdiv, hnew, optBind_some, hgen]
      · exact ⟨hwf, hlink1, hlink2, hvc2⟩

theorem GeneratePublicParamsM_wf (o : Oracle F) (g1f g2f : Nat → Nat → F)
    (k : Nat) :
    ∃ pp rest, GeneratePublicParamsM o g1f g2f (2 ^ k)
        = some (pp :: rest) ∧ validChain (pp :: rest) k := by
  obtain ⟨pp, hnew, hwf⟩ := NewPublicParamsM_wf o g1f g2f k
  obtain ⟨rest, hgen, hvc⟩ := genChainAux_ok o g1f g2f k (2 ^ k + 1) pp
    (by have := Nat.lt_two_pow k; omega) hwf
  refine ⟨pp, rest, ?_, hvc⟩
  unfold GeneratePublicParamsM
  simp only [hnew, optBind_some, hgen]

theorem validChain_length :
    ∀ (c : List (PP F)) (k : Nat), validChain c k → c.length = k + 1 := by
  intro c
  induction c with
  | nil => intro k hvc; exact hvc.elim
  | cons pp rest ih =>
    intro k hvc
    cases k with
    | zero =>
      cases rest with
      | nil => rfl
      | cons pp2 rest2 =>
        simp only [validChain] at hvc
        exact hvc.2.elim
    | succ k2 =>
      cases rest with
      | nil =>
        simp only [validChain] at hvc
        exact hvc.2.elim
      | cons pp2 rest2 =>
        simp only [validChain] at hvc
        have := ih k2 hvc.2.2.2
        simp only [List.length_cons] at this ⊢
        omega

theorem validChain_head_wf (pp : PP F) (rest : List (PP F)) (k : Nat)
    (hvc : validChain (pp :: rest) k) : wfPP pp k := by
  cases k with
  | zero =>
    cases rest with
    | nil => simp only [validChain] at hvc; exact hvc.1
    | cons pp2 rest2 => simp only [validChain] at hvc; exact hvc.1
  | succ k2 =>
    cases rest with
    | nil => simp only [validChain] at hvc; exact hvc.1
    | cons pp2 rest2 => simp only [validChain] at hvc; exact hvc.1

theorem validChain_levels :
    ∀ (c : List (PP F)) (k : Nat), validChain c k →
      ∀ (l : Nat) (hl : l < c.length),
        (c.get ⟨l, hl⟩).Γ1.length = 2 ^ (k - l) ∧
        (c.get ⟨l, hl⟩).Γ2.length = 2 ^ (k - l) ∧
        (l < k → (c.get ⟨l, hl⟩).rpp.Γ1Prime.length = 2 ^ (k - l - 1) ∧
          (c.get ⟨l, hl⟩).rpp.Γ2Prime.length = 2 ^ (k - l - 1)) ∧
        (l = k → (c.get ⟨l, hl⟩).rpp.Γ1Prime = [] ∧
          (c.get ⟨l, hl⟩).rpp.Γ2Prime = []) := by
  intro c
  induction c with
  | nil => intro k hvc; exact hvc.elim
  | cons pp rest ih =>
    intro k hvc l hl
    cases l with
    | zero =>
      have hwf : wfPP pp k := validChain_head_wf pp rest k hvc
      simp only [wfPP] at hwf
      obtain ⟨hl1, hl2, -, hbase, hstep⟩ := hwf
      simp only [List.get, Nat.sub_zero]
      refine ⟨hl1, hl2, ?_, ?_⟩
      · intro hlk
        obtain ⟨hp1, hp2, -, -, -, -⟩ := hstep (k - 1) (by omega)
        constructor
        · rw [hp1]
        · rw [hp2]
      · intro hlk
        exact hbase hlk.symm
    | succ l2 =>
      cases k with
      | zero =>
        cases rest with
        | nil => simp at hl
        | cons pp2 rest2 =>
          simp only [validChain] at hvc
          exact hvc.2.elim
      | succ k2 =>
        cases rest with
        | nil =>
          simp only [validChain] at hvc
          exact hvc.2.elim
        | cons pp2 rest2 =>
          simp only [validChain] at hvc
          have hr := ih k2 hvc.2.2.2 l2 (by simpa using hl)
          simp only [List.get] at hr ⊢
          have hsub : k2 + 1 - (l2 + 1) = k2 - l2 := by omega
          rw [hsub]
          refine ⟨hr.1, hr.2.1, ?_, ?_⟩
          · intro hlt
            exact hr.2.2.1 (by omega)
          · intro heq
            exact hr.2.2.2 (by omega)

/-- C8: the parameter chain has k+1 levels; level l has generator vectors
of length 2^(k-l) and reduction sub-parameters of length 2^(k-l-1), the
last level's reduction sub-parameters being empty. -/
theorem gpp_param_lengths (o : Oracle F) (g1f g2f : Nat → Nat → F)
    (k : Nat) (hk : 1 ≤ k) :
    ∃ chain, GeneratePublicParamsM o g1f g2f (2 ^ k) = some chain ∧
      chain.length = k + 1 ∧
      ∀ (l : Nat) (hl : l < chain.length),
        (chain.get ⟨l, hl⟩).Γ1.length = 2 ^ (k - l) ∧
        (chain.get ⟨l, hl⟩).Γ2.length = 2 ^ (k - l) ∧
        (l < k → (chain.get ⟨l, hl⟩).rpp.Γ1Prime.length = 2 ^ (k - l - 1) ∧
          (chain.get ⟨l, hl⟩).rpp.Γ2Prime.length = 2 ^ (k - l - 1)) ∧
        (l = k → (chain.get ⟨l, hl⟩).rpp.Γ1Prime = [] ∧
          (chain.get ⟨l, hl⟩).rpp.Γ2Prime = []) := by
  obtain ⟨pp, rest, hgen, hvc⟩ := GeneratePublicParamsM_wf o g1f g2f k
  exact ⟨pp :: rest, hgen, validChain_length _ k hvc,
    validChain_levels _ k hvc⟩

/-- Witness for C8 at k = 1 over Z/5 with the concrete oracle. -/
theorem gpp_param_lengths_witness :
    ∃ chain, GeneratePublicParamsM oZ g1fZ g2fZ (2 ^ 1) = some chain ∧
      chain.length = 1 + 1 ∧
      ∀ (l : Nat) (hl : l < chain.length),
        (chain.get ⟨l, hl⟩).Γ1.length = 2 ^ (1 - l) ∧
        (chain.get ⟨l, hl⟩).Γ2.length = 2 ^ (1 - l) ∧
        (l < 1 → (chain.get ⟨l, hl⟩).rpp.Γ1Prime.length = 2 ^ (1 - l - 1) ∧
          (chain.get ⟨l, hl⟩).rpp.Γ2Prime.length = 2 ^ (1 - l - 1)) ∧
        (l = 1 → (chain.get ⟨l, hl⟩).rpp.Γ1Prime = [] ∧
          (chain.get ⟨l, hl⟩).rpp.Γ2Prime = []) :=
  gpp_param_lengths oZ g1fZ g2fZ 1 (by decide)

/-! #### Dory round trip (claim C2) -/

/-- C2 amended: completeness of the Dory reduction for every n = 2^K with
K ≥ 1 (ring sizes of at least two; at n = 1 the prover panics, see the
counterexample), every witness pair of length n, every nonzero base-case
scalar d, and every oracle whose Fiat-Shamir challenges are nonzero. -/
theorem dory_roundtrip_ok (o : Oracle F) (g1f g2f : Nat → Nat → F)
    (K : Nat) (hK : 1 ≤ K) (v1 v2 : List F)
    (hv1 : v1.length = 2 ^ K) (hv2 : v2.length = 2 ^ K)
    (hro1 : ∀ s, o.roStep1 s ≠ 0) (hro2 : ∀ s, o.roStep2 s ≠ 0)
    (d : F) (hd : d ≠ 0) :
    doryRoundTrip o g1f g2f (2 ^ K) v1 v2 d = some none := by
  obtain ⟨pp, rest, hgen, hvc⟩ := GeneratePublicParamsM_wf o g1f g2f K
  have hwf := validChain_head_wf pp rest K hvc
  simp only [wfPP] at hwf
  obtain ⟨hl1, hl2, hχe, -, -⟩ := hwf
  have hone : (1 : Nat) ≤ 2 ^ K := Nat.one_le_two_pow
  have h1 := innerProd_eq v1 pp.Γ2 (by rw [hv1, hl2]) (by rw [hv1]; omega)
  have h2 := innerProd_eq pp.Γ1 v2 (by rw [hl1, hv2]) (by rw [hl1]; omega)
  have h3 := innerProd_eq v1 v2 (by rw [hv1, hv2]) (by rw [hv1]; omega)
  have hcommit : CommitM v1 v2 pp
      = some (⟨ipv v1 v2, ipv v1 pp.Γ2, ipv pp.Γ1 v2⟩, ⟨v1, v2⟩) := by
    unfold CommitM
    simp only [h1, h2, h3, optBind_some]
  obtain ⟨s1, s2, f, hred, hver⟩ := reduceM_verify_ok o hro1 hro2 K pp rest
    ⟨v1, v2⟩ ⟨ipv v1 v2, ipv v1 pp.Γ2, ipv pp.Γ1 v2⟩ d hd hK hvc hv1 hv2
    rfl rfl rfl
  unfold doryRoundTrip ReduceM VerifyReduceM
  simp only [hgen, optBind_some, List.head?_cons, hcommit, hred]
  exact hver

/-- C2 counterexample: at n = 1 (a power of two) the claim fails: Reduce
panics (m = 0 slices give empty inner-product inputs), so the round trip
does not return success even though d = 1 is nonzero. -/
theorem dory_roundtrip_n1_counterexample :
    doryRoundTrip oZ g1fZ g2fZ 1 [(1 : ZMod 5)] [(1 : ZMod 5)] 1 = none
      ∧ (1 : ZMod 5) ≠ 0 :=
  ⟨by decide, by decide⟩

/-- Witness for C2 amended at K = 1 over Z/5. -/
theorem dory_roundtrip_ok_witness :
    doryRoundTrip oZ g1fZ g2fZ (2 ^ 1) [(1 : ZMod 5), 2] [3, 4] 1
      = some none :=
  dory_roundtrip_ok oZ g1fZ g2fZ 1 (by decide) [1, 2] [3, 4] (by decide)
    (by decide) (fun _ => (by decide : (1 : ZMod 5) ≠ 0))
    (fun _ => (by decide : (1 : ZMod 5) ≠ 0)) 1 (by decide)

/-! #### Helper lemmas for the ring-signature completeness proof (C1) -/

theorem vSum_eq (v : List F) (hv : v ≠ []) : vSum v = some v.sum := by
  match v with
  | [] => exact absurd rfl hv
  | x :: rest => simp [vSum]

theorem ipv_map_sub (x : F) :
    ∀ (L cs : List F), L.length = cs.length →
      ipv (L.map (fun g => g - x)) cs = ipv L cs - x * cs.sum := by
  intro L
  induction L with
  | nil =>
    intro cs h
    match cs with
    | [] => simp [ipv]
    | _ :: _ => simp at h
  | cons g L ih =>
    intro cs h
    match cs with
    | [] => simp at h
    | cv :: cs2 =>
      simp only [List.map_cons]
      rw [ipv_cons, ipv_cons, ih cs2 (by simpa using h), List.sum_cons]
      ring

theorem list_split_at_get (l : List F) (j : Nat) (hj : j < l.length) :
    l = l.take j ++ l.get ⟨j, hj⟩ :: l.drop (j + 1) := by
  conv_lhs => rw [← List.take_append_drop j l]
  congr 1
  exact (List.get_cons_drop l ⟨j, hj⟩).symm

theorem locatePKAux_mem (myPK : F) :
    ∀ (ring : List F) (i : Nat), myPK ∈ ring →
      ∃ t, ∃ ht : t < ring.length,
        locatePKAux myPK ring i = some (i + t) ∧
        ring.get ⟨t, ht⟩ = myPK := by
  intro ring
  induction ring with
  | nil => intro i h; simp at h
  | cons p ps ih =>
    intro i h
    by_cases hp : p = myPK
    · exact ⟨0, by simp, by simp [locatePKAux, hp], hp⟩
    · have hmem : myPK ∈ ps := by
        rcases List.mem_cons.mp h with h1 | h2
        · exact absurd h1.symm hp
        · exact h2
      obtain ⟨t, ht, hloc, hget⟩ := ih (i + 1) hmem
      refine ⟨t + 1, by simpa using ht, ?_, by simpa using hget⟩
      simp only [locatePKAux, if_neg hp]
      rw [hloc]
      congr 1
      omega

theorem computeYAux_noskip (com : F) :
    ∀ (ring cs : List F) (i skip : Nat), skip < i →
      ring.length ≤ cs.length →
      computeYAux com ring cs i skip
        = some (ipv (ring.map (fun g => g - com)) cs) := by
  intro ring
  induction ring with
  | nil => intro cs i skip _ _; simp [computeYAux, ipv]
  | cons g ring2 ih =>
    intro cs i skip hsk hlen
    match cs with
    | [] => simp at hlen
    | cv :: cs2 =>
      simp only [computeYAux, if_neg (by omega : ¬ i = skip)]
      rw [ih cs2 (i + 1) skip (by omega) (by simpa using hlen)]
      simp only [Option.map_some', List.map_cons]
      rw [ipv_cons]

theorem computeYAux_split (com : F) :
    ∀ (ringL : List F) (x : F) (ringR cs1 cs2 : List F) (i : Nat),
      ringL.length = cs1.length → ringR.length ≤ cs2.length →
      computeYAux com (ringL ++ x :: ringR) (cs1 ++ cs2) i
          (i + ringL.length)
        = some (ipv (ringL.map (fun g => g - com)) cs1
            + ipv (ringR.map (fun g => g - com)) cs2) := by
  intro ringL
  induction ringL with
  | nil =>
    intro x ringR cs1 cs2 i h1 h2
    match cs1, h1 with
    | [], _ =>
      have hstep : computeYAux com (x :: ringR) cs2 i i
          = computeYAux com ringR cs2 (i + 1) i := by
        match cs2 with
        | [] => simp [computeYAux]
        | cv :: cs3 => simp [computeYAux]
      simp only [List.nil_append, List.length_nil, Nat.add_zero]
      rw [hstep, computeYAux_noskip com ringR cs2 (i + 1) i (by omega) h2]
      simp [ipv]
  | cons g ringL2 ih =>
    intro x ringR cs1 cs2 i h1 h2
    match cs1, h1 with
    | cv :: cs12, h1 =>
      have hne : ¬ i = i + (g :: ringL2).length := by
        simp only [List.length_cons]; omega
      have hrec := ih x ringR cs12 cs2 (i + 1) (by simpa using h1) h2
      have hidx : i + 1 + ringL2.length = i + (g :: ringL2).length := by
        simp only [List.length_cons]; omega
      rw [hidx] at hrec
      simp only [List.cons_append, computeYAux, if_neg hne,
        List.append_eq]
      rw [hrec]
      simp only [Option.map_some', List.map_cons]
      rw [ipv_cons]
      congr 1
      ring
